import Mathlib

/-!
A shallow embedding of the mazegen library (src/lib.rs): the maze data model
(`Cell`, `Maze`), wall queries and mutations, the text rendering, and the
randomized depth-first backtracking generator (`MazeGen`), together with
proofs about them.

Modelling conventions:
* `usize` is modelled as `Nat`.  Every subtraction below is performed on
  values that the surrounding hypotheses keep at least as large as the
  subtrahend, where `Nat` subtraction and `usize` subtraction agree
  (debug-mode overflow panics of Rust are not modelled).
* `HashSet<TileDirection>` is modelled as four booleans, one per direction;
  `HashSet<Coord>` as a `Finset (Nat × Nat)`.  The source only uses
  membership, insertion, removal and emptiness tests on these sets, so
  iteration order is irrelevant.
* The `rand_pcg::Pcg64` generator seeded with the constant 1512 together
  with `IteratorRandom::choose` is abstracted as a stream `seq : Nat → Nat`
  of raw random values; the k-th `choose` over a list `l` returns the
  element at index `seq k % l.length` (and `none` exactly when `l` is
  empty, as in the source).  Every behaviour of the concrete seeded
  generator is one particular stream, and all theorems about generation are
  proved for every stream.
* Calls that `unwrap` in the source are total here; the fallback branches
  return the state unchanged and are unreachable under the in-bounds
  hypotheses of the theorems that use them.
-/

/-- The four compass directions (`TileDirection` in src/lib.rs). -/
inductive TileDirection : Type
| NORTH
| EAST
| SOUTH
| WEST
deriving DecidableEq, Repr

/-- `ALL_TILE_DIRECTIONS` from src/lib.rs (the iteration order of the array). -/
def ALL_TILE_DIRECTIONS : List TileDirection :=
[TileDirection.NORTH, TileDirection.EAST, TileDirection.SOUTH, TileDirection.WEST]

/-- `Size` from src/lib.rs. -/
structure Size : Type where
  width : Nat
  height : Nat
deriving DecidableEq, Repr

/-- `type Coord = (usize, usize)` from src/lib.rs. -/
abbrev Coord : Type := Nat × Nat

/-- `Cell` from src/lib.rs.  The field `walls : HashSet<TileDirection>` is
represented by one boolean per direction (the set is a subset of a fixed
four-element universe). -/
structure Cell : Type where
  coord : Coord
  north : Bool
  east : Bool
  south : Bool
  west : Bool
deriving DecidableEq, Repr

/-- `Cell::new`: empty wall set. -/
def Cell.new (coord : Coord) : Cell :=
⟨coord, false, false, false, false⟩

/-- `Cell::enable_wall`: insert a direction into the wall set. -/
def Cell.enable_wall (c : Cell) (dir : TileDirection) : Cell :=
match dir with
| TileDirection.NORTH => { c with north := true }
| TileDirection.EAST => { c with east := true }
| TileDirection.SOUTH => { c with south := true }
| TileDirection.WEST => { c with west := true }

/-- `Cell::disable_wall`: remove a direction from the wall set. -/
def Cell.disable_wall (c : Cell) (dir : TileDirection) : Cell :=
match dir with
| TileDirection.NORTH => { c with north := false }
| TileDirection.EAST => { c with east := false }
| TileDirection.SOUTH => { c with south := false }
| TileDirection.WEST => { c with west := false }

/-- `Cell::is_wall_enabled`: membership test on the wall set. -/
def Cell.is_wall_enabled (c : Cell) (dir : TileDirection) : Bool :=
match dir with
| TileDirection.NORTH => c.north
| TileDirection.EAST => c.east
| TileDirection.SOUTH => c.south
| TileDirection.WEST => c.west

/-- In-place update of one list entry (used to model mutation of one cell of
the `Vec<Vec<Cell>>`); out-of-range indices leave the list unchanged. -/
def listModify {α : Type} (f : α → α) : Nat → List α → List α
| _, [] => []
| 0, a :: t => f a :: t
| n + 1, a :: t => a :: listModify f n t

/-- `Maze` from src/lib.rs: a size and the owned 2-D array of cells,
outer index = column (`coord.0`), inner index = row (`coord.1`). -/
structure Maze : Type where
  size : Size
  cells : List (List Cell)
deriving DecidableEq, Repr

/-- The cell built by the body of the construction loop of `Maze::new` for
column `i`, row `j`.  The conditions are the source's, bugs included: the
source comments call the second and fourth conditions the east and south
edges, but both test `i == size.height - 1`. -/
def Maze.newCell (size : Size) (i j : Nat) : Cell :=
  let cell := Cell.new (i, j)
  -- west edge
  let cell := if i == 0 then cell.enable_wall TileDirection.WEST else cell
  -- east edge (source tests i == size.height - 1)
  let cell := if i == size.height - 1 then cell.enable_wall TileDirection.EAST else cell
  -- north edge
  let cell := if j == 0 then cell.enable_wall TileDirection.NORTH else cell
  -- south edge (source tests i == size.height - 1)
  let cell := if i == size.height - 1 then cell.enable_wall TileDirection.SOUTH else cell
  cell

/-- `Maze::new` from src/lib.rs. -/
def Maze.new (size : Size) : Maze :=
  { size := size
    cells := (List.range size.width).map (fun i =>
      (List.range size.height).map (fun j => Maze.newCell size i j)) }

/-- `Maze::get_cell`. -/
def Maze.get_cell (m : Maze) (coord : Coord) : Option Cell :=
  (m.cells[coord.1]?).bind (fun row => row[coord.2]?)

/-- The pure counterpart of `Maze::get_mut_cell` followed by a mutation of
the returned cell: apply `f` to the cell at `coord` (no-op out of range,
where the source's callers `unwrap` and panic). -/
def Maze.modifyCell (m : Maze) (coord : Coord) (f : Cell → Cell) : Maze :=
  { m with cells := listModify (fun row => listModify f coord.2 row) coord.1 m.cells }

/-- `Maze::is_valid_coord`. -/
def Maze.is_valid_coord (m : Maze) (coord : Coord) : Bool :=
  decide (coord.1 < m.size.width) && decide (coord.2 < m.size.height)

/-- `Maze::get_neighbor_coords_and_dirs`: candidate neighbors in source
order (EAST, SOUTH, then WEST if `coord.0 > 0`, then NORTH if
`coord.1 > 0`), filtered to in-bounds coordinates. -/
def Maze.get_neighbor_coords_and_dirs (m : Maze) (coord : Coord) : List (Coord × TileDirection) :=
  let base := [((coord.1 + 1, coord.2), TileDirection.EAST),
               ((coord.1, coord.2 + 1), TileDirection.SOUTH)]
  let withW := if coord.1 > 0 then base ++ [((coord.1 - 1, coord.2), TileDirection.WEST)] else base
  let withN := if coord.2 > 0 then withW ++ [((coord.1, coord.2 - 1), TileDirection.NORTH)] else withW
  withN.filter (fun p => m.is_valid_coord p.1)

/-- `Maze::get_opposite`. -/
def Maze.get_opposite (direction : TileDirection) : TileDirection :=
match direction with
| TileDirection.NORTH => TileDirection.SOUTH
| TileDirection.EAST => TileDirection.WEST
| TileDirection.SOUTH => TileDirection.NORTH
| TileDirection.WEST => TileDirection.EAST

/-- The coordinate-and-direction part of
`Maze::get_mut_neighbor_cell_and_shared_wall`: the neighbor coordinate in
the requested direction together with the shared wall's direction seen from
the neighbor. -/
def Maze.get_neighbor_coord_and_shared_wall (m : Maze) (coord : Coord) (direction : TileDirection) :
    Option (Coord × TileDirection) :=
  match (m.get_neighbor_coords_and_dirs coord).find? (fun p => p.2 == direction) with
  | none => none
  | some (ncoord, dir) => some (ncoord, Maze.get_opposite dir)

/-- `Maze::is_edge_wall`. -/
def Maze.is_edge_wall (m : Maze) (coord : Coord) (direction : TileDirection) : Bool :=
match direction with
| TileDirection.NORTH => coord.2 == 0
| TileDirection.EAST => coord.1 == m.size.width - 1
| TileDirection.SOUTH => coord.2 == m.size.height - 1
| TileDirection.WEST => coord.1 == 0

/-- `Maze::is_wall_enabled`: edge walls are reported enabled
unconditionally; otherwise the cell's own flag is read (the source
`unwrap`s the cell, which only fails out of bounds; that unreachable branch
returns `false` here). -/
def Maze.is_wall_enabled (m : Maze) (coord : Coord) (direction : TileDirection) : Bool :=
  if m.is_edge_wall coord direction then true
  else match m.get_cell coord with
       | some cell => cell.is_wall_enabled direction
       | none => false

/-- `Maze::enable_wall`: no-op on edge walls, otherwise set the flag on the
cell and the opposite flag on the neighbor in that direction. -/
def Maze.enable_wall (m : Maze) (coord : Coord) (direction : TileDirection) : Maze :=
  if m.is_edge_wall coord direction then m
  else
    let m1 := m.modifyCell coord (fun c => c.enable_wall direction)
    match m1.get_neighbor_coord_and_shared_wall coord direction with
    | none => m1
    | some (ncoord, shared) => m1.modifyCell ncoord (fun c => c.enable_wall shared)

/-- `Maze::disable_wall`: no-op on edge walls, otherwise clear the flag on
the cell and the opposite flag on the neighbor in that direction. -/
def Maze.disable_wall (m : Maze) (coord : Coord) (direction : TileDirection) : Maze :=
  if m.is_edge_wall coord direction then m
  else
    let m1 := m.modifyCell coord (fun c => c.disable_wall direction)
    match m1.get_neighbor_coord_and_shared_wall coord direction with
    | none => m1
    | some (ncoord, shared) => m1.modifyCell ncoord (fun c => c.disable_wall shared)

/-- `Maze::enable_all_walls`: enable every non-edge wall over the whole
grid, in loop order (columns, rows, `ALL_TILE_DIRECTIONS`). -/
def Maze.enable_all_walls (m : Maze) : Maze :=
  (List.range m.size.width).foldl (fun m1 i =>
    (List.range m1.size.height).foldl (fun m2 j =>
      ALL_TILE_DIRECTIONS.foldl (fun m3 dir =>
        if !(m3.is_edge_wall (i, j) dir) then m3.enable_wall (i, j) dir else m3) m2) m1) m

/-- `Maze::disable_all_walls`. -/
def Maze.disable_all_walls (m : Maze) : Maze :=
  (List.range m.size.width).foldl (fun m1 i =>
    (List.range m1.size.height).foldl (fun m2 j =>
      ALL_TILE_DIRECTIONS.foldl (fun m3 dir =>
        if !(m3.is_edge_wall (i, j) dir) then m3.disable_wall (i, j) dir else m3) m2) m1) m

/-- Well-formedness of the cell array: the `Vec<Vec<Cell>>` of a maze built
by `Maze::new` has `width` rows of `height` cells each. -/
def MazeWF (m : Maze) : Prop :=
  m.cells.length = m.size.width ∧ ∀ row ∈ m.cells, row.length = m.size.height

/-- The cell access used by the renderer (`get_cell(..).unwrap()`); the
default is unreachable for well-formed mazes and in-range coordinates. -/
def Maze.getCellD (m : Maze) (coord : Coord) : Cell :=
  (m.get_cell coord).getD (Cell.new coord)

/-- One "wall" text line of the `Display` implementation (vertical EAST
walls of row `j` between consecutive columns), including the `|` border
characters and the trailing space. -/
def Maze.renderWallLine (m : Maze) (j : Nat) : List Char :=
  ['|'] ++ ((List.range (m.size.width - 1)).flatMap (fun i =>
    [' ', if (m.getCellD (i, j)).is_wall_enabled TileDirection.EAST then '#' else ' '])) ++
  [' ', '|']

/-- One "floor" text line of the `Display` implementation (horizontal SOUTH
walls between row `j` and row `j+1`), including borders and the fixed
corner fillers; note the loop runs over columns `0..width-1`, so the SOUTH
wall of the last column is never shown. -/
def Maze.renderFloorLine (m : Maze) (j : Nat) : List Char :=
  ['|'] ++ ((List.range (m.size.width - 1)).flatMap (fun i =>
    [if (m.getCellD (i, j)).is_wall_enabled TileDirection.SOUTH then '#' else ' ', '#'])) ++
  ['#', '|']

/-- The full text rendering of `impl fmt::Display for Maze`, one inner list
per output line. -/
def Maze.render (m : Maze) : List (List Char) :=
  ([' '] ++ List.replicate (m.size.width * 2 - 1) '_') ::
  (List.range m.size.height).flatMap (fun j =>
    [m.renderWallLine j] ++ (if j < m.size.height - 1 then [m.renderFloorLine j] else []))

/-- Number of interior vertical wall markers in the text rendering: the
wall lines contain a `#` exactly at the markers, so the markers are counted
directly on the rendered lines. -/
def Maze.vertWallMarkerCount (m : Maze) : Nat :=
  ((List.range m.size.height).map (fun j => (m.renderWallLine j).count '#')).sum

/-- Number of interior horizontal wall markers in the text rendering: a
floor line has `width - 1` marker slots and contains a space exactly at the
markers that are off, so the markers shown are the slots minus the spaces
of the rendered line. -/
def Maze.horizWallMarkerCount (m : Maze) : Nat :=
  ((List.range (m.size.height - 1)).map (fun j =>
    (m.size.width - 1) - (m.renderFloorLine j).count ' ')).sum

/-- All in-bounds coordinates, row by row. -/
def allCoordsList (w h : Nat) : List Coord :=
  (List.range h).flatMap (fun j => (List.range w).map (fun i => (i, j)))

/-- The number of non-boundary (coordinate, `d`) pairs whose wall is
enabled, as queried through `Maze::is_wall_enabled`. -/
def Maze.nonEdgeEnabledCount (m : Maze) (d : TileDirection) : Nat :=
  (allCoordsList m.size.width m.size.height).countP
    (fun c => !(m.is_edge_wall c d) && m.is_wall_enabled c d)

/-- `MazeGen` from src/lib.rs. -/
structure MazeGen : Type where
  maze : Maze
  left_to_visit : Finset Coord
  path_stack : List Coord

/-- `MazeGen::new`: fresh maze, every coordinate unvisited, empty stack. -/
def MazeGen.new (size : Size) : MazeGen :=
  { maze := Maze.new size
    left_to_visit := Finset.range size.width ×ˢ Finset.range size.height
    path_stack := [] }

/-- The state of the `generate` loop: the `MazeGen` fields plus the local
variable `coord` (the current position). -/
structure GenState : Type where
  maze : Maze
  left_to_visit : Finset Coord
  path_stack : List Coord
  coord : Coord

/-- `MazeGen::get_valid_neighbor_coords_and_dirs`: in-bounds neighbors
still left to visit. -/
def GenState.get_valid_neighbor_coords_and_dirs (s : GenState) (coord : Coord) :
    List (Coord × TileDirection) :=
  (s.maze.get_neighbor_coords_and_dirs coord).filter (fun p => decide (p.1 ∈ s.left_to_visit))

/-- `IteratorRandom::choose` on a list: `none` exactly on the empty list,
otherwise some element of the list, selected by the random value `seq k`. -/
def chooseFrom {α : Type} (seq : Nat → Nat) (k : Nat) (l : List α) : Option α :=
  if hl : l.length = 0 then none
  else some (l.get ⟨seq k % l.length, Nat.mod_lt _ (Nat.pos_of_ne_zero hl)⟩)

/-- One iteration of the body of the `generate` loop: advance to a randomly
chosen unvisited neighbor (carving the shared wall), or backtrack by
popping the path stack.  Returns `none` where the source would `unwrap` a
pop of an empty stack (a panic), and pairs the new state with `true` iff
the iteration advanced. -/
def genStep (seq : Nat → Nat) (k : Nat) (s : GenState) : Option (GenState × Bool) :=
  match chooseFrom seq k (s.get_valid_neighbor_coords_and_dirs s.coord) with
  | none =>
    match s.path_stack with
    | [] => none
    | c :: rest => some ({ s with coord := c, path_stack := rest }, false)
  | some (next_coord, dir) =>
    some ({ s with
      maze := s.maze.disable_wall s.coord dir
      path_stack := s.coord :: s.path_stack
      coord := next_coord
      left_to_visit := s.left_to_visit.erase next_coord }, true)

/-- The guard of the `generate` loop:
`path_stack.len() > 0 || !left_to_visit.is_empty()`. -/
def genGuard (s : GenState) : Bool :=
  decide (s.path_stack.length > 0) || !(decide (s.left_to_visit = ∅))

/-- The `generate` loop, with explicit fuel (the loop of the source is
unbounded; the theorems below show the fuel used by `MazeGen.generate` is
never exhausted) and two ghost counters recording the number of advancing
steps and of backtracking pops.  `none` means the fuel ran out or a pop of
an empty stack occurred. -/
def genLoop (seq : Nat → Nat) : Nat → Nat → GenState → Nat → Nat → Option (GenState × Nat × Nat)
| 0, _, _, _, _ => none
| fuel + 1, k, s, adv, pops =>
  if genGuard s = true then
    match genStep seq k s with
    | none => none
    | some (s1, true) => genLoop seq fuel (k + 1) s1 (adv + 1) pops
    | some (s1, false) => genLoop seq fuel (k + 1) s1 adv (pops + 1)
  else some (s, adv, pops)

/-- `MazeGen::generate`: reset the maze to fully walled, clear the path
stack (the source does not refill `left_to_visit`), seed the generator
(modelled by the stream `seq`), start at `(0, 0)` — immediately marked
visited — and run the loop. -/
def MazeGen.generate (seq : Nat → Nat) (g : MazeGen) : Option (GenState × Nat × Nat) :=
  let m := g.maze.enable_all_walls
  let s0 : GenState := { maze := m, left_to_visit := g.left_to_visit.erase (0, 0),
                         path_stack := [], coord := (0, 0) }
  genLoop seq (2 * m.size.width * m.size.height) 0 s0 0 0

/-- `gen_maze` from src/lib.rs: construct a fresh `MazeGen` and generate.
The fallback branch is unreachable for positive sizes (proved below). -/
def gen_maze (seq : Nat → Nat) (size : Size) : Maze :=
  match MazeGen.generate seq (MazeGen.new size) with
  | some (s, _, _) => s.maze
  | none => Maze.new size

/-- In-bounds test for the `w × h` grid. -/
def validB (w h : Nat) (c : Coord) : Bool :=
  decide (c.1 < w) && decide (c.2 < h)

/-- Grid adjacency: horizontally or vertically neighboring coordinates. -/
def adjacentB (u v : Coord) : Bool :=
  (decide (u.2 = v.2) && (decide (v.1 = u.1 + 1) || decide (u.1 = v.1 + 1))) ||
  (decide (u.1 = v.1) && (decide (v.2 = u.2 + 1) || decide (u.2 = v.2 + 1)))

/-- The direction from a coordinate toward an adjacent one (only used under
`adjacentB`). -/
def dirTo (u v : Coord) : TileDirection :=
  if v.1 = u.1 + 1 then TileDirection.EAST
  else if u.1 = v.1 + 1 then TileDirection.WEST
  else if v.2 = u.2 + 1 then TileDirection.SOUTH
  else TileDirection.NORTH

/-- Two adjacent in-bounds cells with the wall between them disabled (as
reported by `Maze::is_wall_enabled`, from both sides). -/
def carvedB (w h : Nat) (m : Maze) (u v : Coord) : Bool :=
  adjacentB u v && validB w h u && validB w h v &&
  !(m.is_wall_enabled u (dirTo u v)) && !(m.is_wall_enabled v (dirTo v u))

/-- The graph of claim C1: vertices are the grid's cells, edges connect
adjacent cells whose shared wall is disabled. -/
def mazeGraph (w h : Nat) (m : Maze) : SimpleGraph (Fin w × Fin h) where
  Adj a b := (carvedB w h m (a.1.val, a.2.val) (b.1.val, b.2.val) &&
              carvedB w h m (b.1.val, b.2.val) (a.1.val, a.2.val)) = true
  symm := by
    intro a b h
    rwa [Bool.and_comm] at h
  loopless := by
    intro a h
    simp only [Bool.and_eq_true, carvedB, adjacentB, Bool.or_eq_true, decide_eq_true_eq] at h
    obtain ⟨⟨⟨⟨⟨hadj, _⟩, _⟩, _⟩, _⟩, _⟩ := h
    rcases hadj with ⟨_, h1 | h1⟩ | ⟨_, h1 | h1⟩ <;> omega

/-- Wall queries are boolean, so adjacency of `mazeGraph` is decidable and
its edge set is a `Fintype`. -/
instance (w h : Nat) (m : Maze) : DecidableRel (mazeGraph w h m).Adj :=
  fun _ _ => instDecidableEqBool _ _

/-- Reachability through carved (wall-disabled) passages, stepping only
along walls disabled as seen from both sides (which coincides with the
adjacency of `mazeGraph`). -/
def CarvedReach (w h : Nat) (m : Maze) : Coord → Coord → Prop :=
  Relation.ReflTransGen (fun u v => (carvedB w h m u v && carvedB w h m v u) = true)

/-- The invariant of the `generate` loop over a `w × h` grid.  `active`
cells are the current position plus the path stack; a visited cell that is
no longer active has no unvisited neighbor; carved walls connect visited
cells only and form a forest oriented by a visit numbering. -/
structure GenInv (w h : Nat) (s : GenState) : Prop where
  size_eq : s.maze.size = ⟨w, h⟩
  wf : MazeWF s.maze
  ltv_valid : ∀ c ∈ s.left_to_visit, validB w h c = true
  root_vis : (0, 0) ∉ s.left_to_visit
  cur_valid : validB w h s.coord = true
  cur_vis : s.coord ∉ s.left_to_visit
  stack_valid : ∀ c ∈ s.path_stack, validB w h c = true
  stack_vis : ∀ c ∈ s.path_stack, c ∉ s.left_to_visit
  closure : ∀ c, validB w h c = true → c ∉ s.left_to_visit →
    c ∉ s.coord :: s.path_stack →
    ∀ p, validB w h p = true → adjacentB c p = true → p ∉ s.left_to_visit
  carved_vis : ∀ u v, carvedB w h s.maze u v = true →
    u ∉ s.left_to_visit ∧ v ∉ s.left_to_visit
  reach : ∀ c, validB w h c = true → c ∉ s.left_to_visit →
    CarvedReach w h s.maze (0, 0) c
  forest : ∃ num : Coord → Nat, ∃ par : Coord → Coord, ∃ bound : Nat,
    (∀ u v, carvedB w h s.maze u v = true →
      ((u = par v ∧ num u < num v) ∨ (v = par u ∧ num v < num u))) ∧
    (∀ c, validB w h c = true → c ∉ s.left_to_visit → num c < bound)

/-- The termination measure of the `generate` loop: every iteration
decreases it by exactly one. -/
def genMeasure (s : GenState) : Nat :=
  2 * s.left_to_visit.card + s.path_stack.length

/-- The vertex of `mazeGraph` corresponding to an in-bounds coordinate. -/
def toV (w h : Nat) (c : Coord) (hc : validB w h c = true) : Fin w × Fin h :=
  (⟨c.1, by
      unfold validB at hc
      simp only [Bool.and_eq_true, decide_eq_true_eq] at hc
      exact hc.1⟩,
   ⟨c.2, by
      unfold validB at hc
      simp only [Bool.and_eq_true, decide_eq_true_eq] at hc
      exact hc.2⟩)

theorem listModify_length {α : Type} (f : α → α) :
    ∀ (i : Nat) (l : List α), (listModify f i l).length = l.length := by
  intro i l
  induction l generalizing i with
  | nil => cases i <;> rfl
  | cons a t ih =>
    cases i with
    | zero => rfl
    | succ n => simpa [listModify] using ih n

theorem getElem?_listModify {α : Type} (f : α → α) :
    ∀ (i j : Nat) (l : List α),
      (listModify f i l)[j]? = if i = j then (l[j]?).map f else l[j]? := by
  intro i j l
  induction l generalizing i j with
  | nil => cases i <;> simp [listModify]
  | cons a t ih =>
    cases i with
    | zero =>
      cases j with
      | zero => simp [listModify]
      | succ n => simp [listModify]
    | succ n =>
      cases j with
      | zero => simp [listModify]
      | succ k =>
        simp only [listModify, List.getElem?_cons_succ]
        rw [ih n k]
        by_cases h : n = k <;> simp [h]

theorem mem_listModify {α : Type} (f : α → α) :
    ∀ (i : Nat) (l : List α) (x : α), x ∈ listModify f i l → x ∈ l ∨ ∃ y ∈ l, x = f y := by
  intro i l
  induction l generalizing i with
  | nil => intro x hx; cases i <;> simp [listModify] at hx
  | cons a t ih =>
    intro x hx
    cases i with
    | zero =>
      rcases List.mem_cons.mp hx with h | h
      · exact Or.inr ⟨a, List.mem_cons_self a t, h⟩
      · exact Or.inl (List.mem_cons_of_mem a h)
    | succ n =>
      rcases List.mem_cons.mp hx with h | h
      · exact Or.inl (h ▸ List.mem_cons_self a t)
      · rcases ih n x h with h2 | ⟨y, hy, hxy⟩
        · exact Or.inl (List.mem_cons_of_mem a h2)
        · exact Or.inr ⟨y, List.mem_cons_of_mem a hy, hxy⟩

theorem listModify_id {α : Type} (f : α → α) :
    ∀ (i : Nat) (l : List α), (∀ x, l[i]? = some x → f x = x) → listModify f i l = l := by
  intro i l
  induction l generalizing i with
  | nil => intro _; cases i <;> rfl
  | cons a t ih =>
    intro hfix
    cases i with
    | zero =>
      simp only [listModify]
      rw [hfix a (by simp)]
    | succ n =>
      simp only [listModify, List.cons.injEq, true_and]
      exact ih n (fun x hx => hfix x (by simpa using hx))

theorem Cell.is_wall_enabled_enable (c : Cell) (d e : TileDirection) :
    (c.enable_wall d).is_wall_enabled e = if e = d then true else c.is_wall_enabled e := by
  cases d <;> cases e <;> simp [Cell.enable_wall, Cell.is_wall_enabled]

theorem Cell.is_wall_enabled_disable (c : Cell) (d e : TileDirection) :
    (c.disable_wall d).is_wall_enabled e = if e = d then false else c.is_wall_enabled e := by
  cases d <;> cases e <;> simp [Cell.disable_wall, Cell.is_wall_enabled]

theorem Cell.enable_enable (c : Cell) (d : TileDirection) :
    (c.enable_wall d).enable_wall d = c.enable_wall d := by
  cases d <;> rfl

theorem Cell.disable_disable (c : Cell) (d : TileDirection) :
    (c.disable_wall d).disable_wall d = c.disable_wall d := by
  cases d <;> rfl

theorem Maze.get_cell_modifyCell (m : Maze) (y : Coord) (f : Cell → Cell) (x : Coord) :
    (m.modifyCell y f).get_cell x = if x = y then (m.get_cell x).map f else m.get_cell x := by
  obtain ⟨x1, x2⟩ := x
  obtain ⟨y1, y2⟩ := y
  unfold Maze.modifyCell Maze.get_cell
  simp only [getElem?_listModify, Prod.mk.injEq]
  by_cases h1 : y1 = x1
  · by_cases h2 : y2 = x2
    · subst h1
      subst h2
      simp only [if_pos rfl, and_self, if_true]
      cases m.cells[y1]? with
      | none => rfl
      | some row => simp [getElem?_listModify]
    · have hne : ¬(x1 = y1 ∧ x2 = y2) := fun hc => h2 hc.2.symm
      rw [if_pos h1, if_neg hne]
      cases m.cells[x1]? with
      | none => rfl
      | some row => simp [getElem?_listModify, h2]
  · have hne : ¬(x1 = y1 ∧ x2 = y2) := fun hc => h1 hc.1.symm
    rw [if_neg h1, if_neg hne]

theorem Maze.size_modifyCell (m : Maze) (y : Coord) (f : Cell → Cell) :
    (m.modifyCell y f).size = m.size := rfl

theorem Maze.modifyCell_eq_self (m : Maze) (y : Coord) (f : Cell → Cell)
    (hfix : ∀ cell, m.get_cell y = some cell → f cell = cell) : m.modifyCell y f = m := by
  unfold Maze.modifyCell
  have : listModify (fun row => listModify f y.2 row) y.1 m.cells = m.cells := by
    apply listModify_id
    intro row hrow
    apply listModify_id
    intro x hx
    apply hfix
    unfold Maze.get_cell
    rw [hrow]
    simpa using hx
  rw [this]

theorem MazeWF_modifyCell (m : Maze) (y : Coord) (f : Cell → Cell) (hwf : MazeWF m) :
    MazeWF (m.modifyCell y f) := by
  obtain ⟨hlen, hrows⟩ := hwf
  constructor
  · simpa [Maze.modifyCell, listModify_length] using hlen
  · intro row hrow
    rcases mem_listModify _ _ _ _ hrow with h | ⟨r, hr, hrw⟩
    · exact hrows row h
    · rw [hrw]
      simpa [listModify_length] using hrows r hr

theorem Maze.size_enable_wall (m : Maze) (c : Coord) (d : TileDirection) :
    (m.enable_wall c d).size = m.size := by
  unfold Maze.enable_wall
  split
  · rfl
  · dsimp only
    split
    · rfl
    · rfl

theorem Maze.size_disable_wall (m : Maze) (c : Coord) (d : TileDirection) :
    (m.disable_wall c d).size = m.size := by
  unfold Maze.disable_wall
  split
  · rfl
  · dsimp only
    split
    · rfl
    · rfl

theorem MazeWF_enable_wall (m : Maze) (c : Coord) (d : TileDirection) (hwf : MazeWF m) :
    MazeWF (m.enable_wall c d) := by
  unfold Maze.enable_wall
  split
  · exact hwf
  · dsimp only
    split
    · exact MazeWF_modifyCell _ _ _ hwf
    · exact MazeWF_modifyCell _ _ _ (MazeWF_modifyCell _ _ _ hwf)

theorem MazeWF_disable_wall (m : Maze) (c : Coord) (d : TileDirection) (hwf : MazeWF m) :
    MazeWF (m.disable_wall c d) := by
  unfold Maze.disable_wall
  split
  · exact hwf
  · dsimp only
    split
    · exact MazeWF_modifyCell _ _ _ hwf
    · exact MazeWF_modifyCell _ _ _ (MazeWF_modifyCell _ _ _ hwf)

theorem foldl_invariant {α β : Type} (P : α → Prop) (f : α → β → α) :
    ∀ (l : List β) (a : α), P a → (∀ a x, P a → P (f a x)) → P (l.foldl f a) := by
  intro l
  induction l with
  | nil => intro a ha _; exact ha
  | cons x t ih => intro a ha hstep; exact ih (f a x) (hstep a x ha) hstep

theorem foldl_establish {α β : Type} (P Q : α → Prop) (f : α → β → α) (l : List β) (x : β)
    (hx : x ∈ l) (hstart : ∀ a, Q a → P (f a x)) (hQ : ∀ a y, Q a → Q (f a y))
    (hP : ∀ a y, P a → P (f a y)) : ∀ a, Q a → P (l.foldl f a) := by
  induction l with
  | nil => cases hx
  | cons yy t ih =>
    intro a ha
    rcases List.mem_cons.mp hx with rfl | hxt
    · exact foldl_invariant P f t (f a x) (hstart a ha) (fun b z hb => hP b z hb)
    · exact ih hxt (f a yy) (hQ a yy ha)

theorem Maze.is_edge_wall_congr (m m' : Maze) (hsz : m'.size = m.size) (c : Coord)
    (d : TileDirection) : m'.is_edge_wall c d = m.is_edge_wall c d := by
  unfold Maze.is_edge_wall
  cases d <;> rw [hsz]

theorem Maze.is_valid_coord_congr (m m' : Maze) (hsz : m'.size = m.size) (c : Coord) :
    m'.is_valid_coord c = m.is_valid_coord c := by
  unfold Maze.is_valid_coord
  rw [hsz]

theorem Maze.get_cell_isSome (m : Maze) (c : Coord) (hwf : MazeWF m)
    (hc : m.is_valid_coord c = true) : ∃ cell, m.get_cell c = some cell := by
  obtain ⟨hlen, hrows⟩ := hwf
  unfold Maze.is_valid_coord at hc
  simp only [Bool.and_eq_true, decide_eq_true_eq] at hc
  obtain ⟨h1, h2⟩ := hc
  have hr : c.1 < m.cells.length := by rw [hlen]; exact h1
  have hrow : m.cells[c.1]? = some (m.cells[c.1]) := List.getElem?_eq_getElem hr
  have hmem : m.cells[c.1] ∈ m.cells := List.getElem_mem hr
  have hrl : c.2 < (m.cells[c.1]).length := by rw [hrows _ hmem]; exact h2
  refine ⟨(m.cells[c.1])[c.2], ?_⟩
  unfold Maze.get_cell
  rw [hrow]
  simp [List.getElem?_eq_getElem hrl]

theorem Maze.is_wall_enabled_modify_enable (m : Maze) (y : Coord) (d' : TileDirection)
    (x : Coord) (e : TileDirection) (h : m.is_wall_enabled x e = true) :
    (m.modifyCell y (fun cl => cl.enable_wall d')).is_wall_enabled x e = true := by
  unfold Maze.is_wall_enabled at *
  rw [Maze.is_edge_wall_congr m (m.modifyCell y fun cl => cl.enable_wall d') rfl]
  by_cases hedge : m.is_edge_wall x e = true
  · rw [if_pos hedge]
  · rw [if_neg hedge] at h ⊢
    rw [Maze.get_cell_modifyCell]
    by_cases hxy : x = y
    · rw [if_pos hxy]
      cases hc : m.get_cell x with
      | none => rw [hc] at h; exact absurd h (by simp)
      | some cell =>
        rw [hc] at h
        simp only [Option.map_some']
        rw [Cell.is_wall_enabled_enable]
        by_cases he : e = d'
        · simp [he]
        · simpa [he] using h
    · rw [if_neg hxy]
      exact h

theorem Maze.enable_wall_mono (m : Maze) (c : Coord) (d : TileDirection) (x : Coord)
    (e : TileDirection) (h : m.is_wall_enabled x e = true) :
    (m.enable_wall c d).is_wall_enabled x e = true := by
  unfold Maze.enable_wall
  split
  · exact h
  · dsimp only
    split
    · exact Maze.is_wall_enabled_modify_enable _ _ _ _ _ h
    · exact Maze.is_wall_enabled_modify_enable _ _ _ _ _
        (Maze.is_wall_enabled_modify_enable _ _ _ _ _ h)

theorem Maze.enable_wall_flag (m : Maze) (c : Coord) (d : TileDirection) (hwf : MazeWF m)
    (hc : m.is_valid_coord c = true) :
    (m.enable_wall c d).is_wall_enabled c d = true := by
  by_cases hedge : m.is_edge_wall c d = true
  · unfold Maze.enable_wall
    rw [if_pos hedge]
    unfold Maze.is_wall_enabled
    rw [if_pos hedge]
  · unfold Maze.enable_wall
    rw [if_neg hedge]
    dsimp only
    have h1 : ((m.modifyCell c fun cl => cl.enable_wall d).is_wall_enabled c d) = true := by
      unfold Maze.is_wall_enabled
      rw [Maze.is_edge_wall_congr m (m.modifyCell c fun cl => cl.enable_wall d) rfl,
        if_neg hedge, Maze.get_cell_modifyCell, if_pos rfl]
      obtain ⟨cell, hcell⟩ := Maze.get_cell_isSome m c hwf hc
      rw [hcell]
      simp only [Option.map_some']
      rw [Cell.is_wall_enabled_enable, if_pos rfl]
    split
    · exact h1
    · exact Maze.is_wall_enabled_modify_enable _ _ _ _ _ h1

theorem Maze.size_enable_all_walls (m : Maze) : (m.enable_all_walls).size = m.size := by
  unfold Maze.enable_all_walls
  apply foldl_invariant (fun (mz : Maze) => mz.size = m.size)
  · rfl
  · intro a i ha
    apply foldl_invariant (fun (mz : Maze) => mz.size = m.size)
    · exact ha
    · intro b j hb
      apply foldl_invariant (fun (mz : Maze) => mz.size = m.size)
      · exact hb
      · intro mz dir hmz
        split
        · rw [Maze.size_enable_wall]; exact hmz
        · exact hmz

theorem Maze.size_disable_all_walls (m : Maze) : (m.disable_all_walls).size = m.size := by
  unfold Maze.disable_all_walls
  apply foldl_invariant (fun (mz : Maze) => mz.size = m.size)
  · rfl
  · intro a i ha
    apply foldl_invariant (fun (mz : Maze) => mz.size = m.size)
    · exact ha
    · intro b j hb
      apply foldl_invariant (fun (mz : Maze) => mz.size = m.size)
      · exact hb
      · intro mz dir hmz
        split
        · rw [Maze.size_disable_wall]; exact hmz
        · exact hmz

theorem MazeWF_enable_all_walls (m : Maze) (hwf : MazeWF m) : MazeWF (m.enable_all_walls) := by
  unfold Maze.enable_all_walls
  apply foldl_invariant MazeWF
  · exact hwf
  · intro a i ha
    apply foldl_invariant MazeWF
    · exact ha
    · intro b j hb
      apply foldl_invariant MazeWF
      · exact hb
      · intro mz dir hmz
        split
        · exact MazeWF_enable_wall _ _ _ hmz
        · exact hmz

theorem Maze.enable_all_walls_wall (m : Maze) (hwf : MazeWF m) (c : Coord) (d : TileDirection)
    (hc : m.is_valid_coord c = true) :
    (m.enable_all_walls).is_wall_enabled c d = true := by
  by_cases hedge : m.is_edge_wall c d = true
  · unfold Maze.is_wall_enabled
    rw [Maze.is_edge_wall_congr m _ (Maze.size_enable_all_walls m), if_pos hedge]
  · have hcw : c.1 < m.size.width := by
      have := hc
      unfold Maze.is_valid_coord at this
      simp only [Bool.and_eq_true, decide_eq_true_eq] at this
      exact this.1
    have hch : c.2 < m.size.height := by
      have := hc
      unfold Maze.is_valid_coord at this
      simp only [Bool.and_eq_true, decide_eq_true_eq] at this
      exact this.2
    simp only [Bool.not_eq_true] at hedge
    have hstep_mono : ∀ (mz : Maze) (i j : Nat) (dir : TileDirection),
        mz.is_wall_enabled c d = true →
        (if !(mz.is_edge_wall (i, j) dir) then mz.enable_wall (i, j) dir else mz).is_wall_enabled
          c d = true := by
      intro mz i j dir hp
      split
      · exact Maze.enable_wall_mono _ _ _ _ _ hp
      · exact hp
    have hstep_q : ∀ (mz : Maze) (i j : Nat) (dir : TileDirection),
        mz.size = m.size ∧ MazeWF mz →
        (if !(mz.is_edge_wall (i, j) dir) then mz.enable_wall (i, j) dir else mz).size = m.size ∧
        MazeWF (if !(mz.is_edge_wall (i, j) dir) then mz.enable_wall (i, j) dir else mz) := by
      intro mz i j dir hq0
      split
      · exact ⟨by rw [Maze.size_enable_wall]; exact hq0.1, MazeWF_enable_wall _ _ _ hq0.2⟩
      · exact hq0
    have hL1 : ∀ (mz : Maze), mz.size = m.size ∧ MazeWF mz →
        (ALL_TILE_DIRECTIONS.foldl (fun m3 dir =>
          if !(m3.is_edge_wall (c.1, c.2) dir) then m3.enable_wall (c.1, c.2) dir else m3)
          mz).is_wall_enabled c d = true := by
      apply foldl_establish (fun (mz : Maze) => mz.is_wall_enabled c d = true)
        (fun (mz : Maze) => mz.size = m.size ∧ MazeWF mz) _ ALL_TILE_DIRECTIONS d
      · cases d <;> simp [ALL_TILE_DIRECTIONS]
      · intro a hq0
        have hedge' : a.is_edge_wall (c.1, c.2) d = false := by
          rw [Maze.is_edge_wall_congr m a hq0.1]
          exact hedge
        rw [hedge']
        simp only [Bool.not_false, if_true]
        have hcv : a.is_valid_coord (c.1, c.2) = true := by
          rw [Maze.is_valid_coord_congr m a hq0.1]
          exact hc
        exact Maze.enable_wall_flag a (c.1, c.2) d hq0.2 hcv
      · intro a y hq0
        exact hstep_q a c.1 c.2 y hq0
      · intro a y hp
        exact hstep_mono a c.1 c.2 y hp
    have hL2 : ∀ (mz : Maze), mz.size = m.size ∧ MazeWF mz →
        ((List.range mz.size.height).foldl (fun m2 j =>
          ALL_TILE_DIRECTIONS.foldl (fun m3 dir =>
            if !(m3.is_edge_wall (c.1, j) dir) then m3.enable_wall (c.1, j) dir else m3) m2)
          mz).is_wall_enabled c d = true := by
      intro mz hq0
      apply foldl_establish (fun (mz : Maze) => mz.is_wall_enabled c d = true)
        (fun (mz : Maze) => mz.size = m.size ∧ MazeWF mz) _ (List.range mz.size.height) c.2
      · rw [List.mem_range, hq0.1]
        exact hch
      · intro a hqa
        exact hL1 a hqa
      · intro a y hqa
        apply foldl_invariant (fun (mz : Maze) => mz.size = m.size ∧ MazeWF mz)
        · exact hqa
        · intro b dir hqb
          exact hstep_q b c.1 y dir hqb
      · intro a y hpa
        apply foldl_invariant (fun (mz : Maze) => mz.is_wall_enabled c d = true)
        · exact hpa
        · intro b dir hpb
          exact hstep_mono b c.1 y dir hpb
      · exact hq0
    unfold Maze.enable_all_walls
    apply foldl_establish (fun (mz : Maze) => mz.is_wall_enabled c d = true)
      (fun (mz : Maze) => mz.size = m.size ∧ MazeWF mz) _ (List.range m.size.width) c.1
    · rw [List.mem_range]
      exact hcw
    · intro a hqa
      exact hL2 a hqa
    · intro a y hqa
      apply foldl_invariant (fun (mz : Maze) => mz.size = m.size ∧ MazeWF mz)
      · exact hqa
      · intro b j hqb
        apply foldl_invariant (fun (mz : Maze) => mz.size = m.size ∧ MazeWF mz)
        · exact hqb
        · intro e dir hqe
          exact hstep_q e y j dir hqe
    · intro a y hpa
      apply foldl_invariant (fun (mz : Maze) => mz.is_wall_enabled c d = true)
      · exact hpa
      · intro b j hpb
        apply foldl_invariant (fun (mz : Maze) => mz.is_wall_enabled c d = true)
        · exact hpb
        · intro e dir hpe
          exact hstep_mono e y j dir hpe
    · exact ⟨rfl, hwf⟩

theorem dirTo_east {u v : Coord} (h1 : v.1 = u.1 + 1) : dirTo u v = TileDirection.EAST := by
  unfold dirTo
  rw [if_pos h1]

theorem dirTo_west {u v : Coord} (h1 : u.1 = v.1 + 1) : dirTo u v = TileDirection.WEST := by
  unfold dirTo
  rw [if_neg (by omega), if_pos h1]

theorem dirTo_south {u v : Coord} (h1 : v.1 = u.1) (h2 : v.2 = u.2 + 1) :
    dirTo u v = TileDirection.SOUTH := by
  unfold dirTo
  rw [if_neg (by omega), if_neg (by omega), if_pos h2]

theorem dirTo_north {u v : Coord} (h1 : v.1 = u.1) (h2 : u.2 = v.2 + 1) :
    dirTo u v = TileDirection.NORTH := by
  unfold dirTo
  rw [if_neg (by omega), if_neg (by omega), if_neg (by omega)]

theorem Maze.mem_neighbors_elim (m : Maze) (c p : Coord) (d : TileDirection)
    (hm : (p, d) ∈ m.get_neighbor_coords_and_dirs c) :
    m.is_valid_coord p = true ∧
    ((d = TileDirection.EAST ∧ p = (c.1 + 1, c.2)) ∨
     (d = TileDirection.SOUTH ∧ p = (c.1, c.2 + 1)) ∨
     (d = TileDirection.WEST ∧ 0 < c.1 ∧ p = (c.1 - 1, c.2)) ∨
     (d = TileDirection.NORTH ∧ 0 < c.2 ∧ p = (c.1, c.2 - 1))) := by
  unfold Maze.get_neighbor_coords_and_dirs at hm
  simp only [List.mem_filter] at hm
  obtain ⟨hmem, hvalid⟩ := hm
  refine ⟨hvalid, ?_⟩
  split_ifs at hmem <;>
    simp only [List.mem_append, List.mem_cons, List.not_mem_nil, or_false,
      Prod.mk.injEq, List.mem_singleton] at hmem <;>
    tauto

theorem Maze.neighbors_east (m : Maze) (c : Coord)
    (hv : m.is_valid_coord (c.1 + 1, c.2) = true) :
    ((c.1 + 1, c.2), TileDirection.EAST) ∈ m.get_neighbor_coords_and_dirs c := by
  unfold Maze.get_neighbor_coords_and_dirs
  simp only [List.mem_filter]
  refine ⟨?_, hv⟩
  split_ifs <;> simp

theorem Maze.neighbors_south (m : Maze) (c : Coord)
    (hv : m.is_valid_coord (c.1, c.2 + 1) = true) :
    ((c.1, c.2 + 1), TileDirection.SOUTH) ∈ m.get_neighbor_coords_and_dirs c := by
  unfold Maze.get_neighbor_coords_and_dirs
  simp only [List.mem_filter]
  refine ⟨?_, hv⟩
  split_ifs <;> simp

theorem Maze.neighbors_west (m : Maze) (c : Coord) (h1 : 0 < c.1)
    (hv : m.is_valid_coord (c.1 - 1, c.2) = true) :
    ((c.1 - 1, c.2), TileDirection.WEST) ∈ m.get_neighbor_coords_and_dirs c := by
  unfold Maze.get_neighbor_coords_and_dirs
  simp only [List.mem_filter]
  refine ⟨?_, hv⟩
  split_ifs <;> simp_all

theorem Maze.neighbors_north (m : Maze) (c : Coord) (h2 : 0 < c.2)
    (hv : m.is_valid_coord (c.1, c.2 - 1) = true) :
    ((c.1, c.2 - 1), TileDirection.NORTH) ∈ m.get_neighbor_coords_and_dirs c := by
  unfold Maze.get_neighbor_coords_and_dirs
  simp only [List.mem_filter]
  refine ⟨?_, hv⟩
  split_ifs <;> simp_all

theorem Maze.mem_neighbors_of_adjacent (m : Maze) (c p : Coord)
    (hadj : adjacentB c p = true) (hv : m.is_valid_coord p = true) :
    (p, dirTo c p) ∈ m.get_neighbor_coords_and_dirs c := by
  unfold adjacentB at hadj
  simp only [Bool.or_eq_true, Bool.and_eq_true, decide_eq_true_eq] at hadj
  obtain ⟨p1, p2⟩ := p
  rcases hadj with ⟨h2, h1 | h1⟩ | ⟨h1, h2 | h2⟩
  · have hp : (p1, p2) = ((c.1 : Nat) + 1, (c.2 : Nat)) := by
      simp only [Prod.mk.injEq]
      exact ⟨h1, h2.symm⟩
    rw [dirTo_east h1, hp]
    rw [hp] at hv
    exact Maze.neighbors_east m c hv
  · have hp : (p1, p2) = ((c.1 : Nat) - 1, (c.2 : Nat)) := by
      simp only [Prod.mk.injEq]
      constructor
      · omega
      · exact h2.symm
    rw [dirTo_west h1, hp]
    rw [hp] at hv
    exact Maze.neighbors_west m c (by omega) hv
  · have hp : (p1, p2) = ((c.1 : Nat), (c.2 : Nat) + 1) := by
      simp only [Prod.mk.injEq]
      exact ⟨h1.symm, h2⟩
    rw [dirTo_south (by omega) h2, hp]
    rw [hp] at hv
    exact Maze.neighbors_south m c hv
  · have hp : (p1, p2) = ((c.1 : Nat), (c.2 : Nat) - 1) := by
      simp only [Prod.mk.injEq]
      constructor
      · exact h1.symm
      · omega
    rw [dirTo_north (by omega) h2, hp]
    rw [hp] at hv
    exact Maze.neighbors_north m c (by omega) hv

theorem Maze.not_edge_of_mem_neighbors (m : Maze) (c p : Coord) (d : TileDirection)
    (hm : (p, d) ∈ m.get_neighbor_coords_and_dirs c) :
    m.is_edge_wall c d = false := by
  obtain ⟨hv, hcase⟩ := Maze.mem_neighbors_elim m c p d hm
  unfold Maze.is_valid_coord at hv
  simp only [Bool.and_eq_true, decide_eq_true_eq] at hv
  rcases hcase with ⟨rfl, hp⟩ | ⟨rfl, hp⟩ | ⟨rfl, h1, hp⟩ | ⟨rfl, h2, hp⟩ <;> subst hp <;>
    simp only [Maze.is_edge_wall, beq_eq_false_iff_ne, ne_eq] <;> omega

theorem Maze.not_edge_opposite_of_mem_neighbors (m : Maze) (c p : Coord) (d : TileDirection)
    (hc : m.is_valid_coord c = true)
    (hm : (p, d) ∈ m.get_neighbor_coords_and_dirs c) :
    m.is_edge_wall p (Maze.get_opposite d) = false := by
  obtain ⟨hv, hcase⟩ := Maze.mem_neighbors_elim m c p d hm
  unfold Maze.is_valid_coord at hv hc
  simp only [Bool.and_eq_true, decide_eq_true_eq] at hv hc
  rcases hcase with ⟨rfl, hp⟩ | ⟨rfl, hp⟩ | ⟨rfl, h1, hp⟩ | ⟨rfl, h2, hp⟩ <;> subst hp <;>
    simp only [Maze.get_opposite, Maze.is_edge_wall, beq_eq_false_iff_ne, ne_eq] <;> omega

theorem Maze.mem_neighbors_facts (m : Maze) (c p : Coord) (d : TileDirection)
    (hm : (p, d) ∈ m.get_neighbor_coords_and_dirs c) :
    adjacentB c p = true ∧ dirTo c p = d ∧ dirTo p c = Maze.get_opposite d ∧ p ≠ c := by
  obtain ⟨hv, hcase⟩ := Maze.mem_neighbors_elim m c p d hm
  unfold adjacentB
  simp only [Bool.or_eq_true, Bool.and_eq_true, decide_eq_true_eq]
  rcases hcase with ⟨rfl, hp⟩ | ⟨rfl, hp⟩ | ⟨rfl, h1, hp⟩ | ⟨rfl, h2, hp⟩ <;> subst hp
  · refine ⟨Or.inl ⟨rfl, Or.inl rfl⟩, dirTo_east rfl, dirTo_west rfl, ?_⟩
    intro hcon
    have := congrArg Prod.fst hcon
    simp at this
  · refine ⟨Or.inr ⟨rfl, Or.inl rfl⟩, dirTo_south rfl rfl, dirTo_north rfl rfl, ?_⟩
    intro hcon
    have := congrArg Prod.snd hcon
    simp at this
  · refine ⟨Or.inl ⟨rfl, Or.inr (by omega)⟩, dirTo_west (by omega), dirTo_east (by omega), ?_⟩
    intro hcon
    have := congrArg Prod.fst hcon
    simp only at this
    omega
  · refine ⟨Or.inr ⟨rfl, Or.inr (by omega)⟩, dirTo_north rfl (by omega),
      dirTo_south rfl (by omega), ?_⟩
    intro hcon
    have := congrArg Prod.snd hcon
    simp only at this
    omega

theorem Maze.find_neighbor (m : Maze) (c p : Coord) (d : TileDirection)
    (hm : (p, d) ∈ m.get_neighbor_coords_and_dirs c) :
    m.get_neighbor_coord_and_shared_wall c d = some (p, Maze.get_opposite d) := by
  unfold Maze.get_neighbor_coord_and_shared_wall
  cases hfind : (m.get_neighbor_coords_and_dirs c).find? (fun q => q.2 == d) with
  | none =>
    rw [List.find?_eq_none] at hfind
    exact absurd (by simp : ((p, d).2 == d) = true) (hfind (p, d) hm)
  | some q =>
    obtain ⟨q1, q2⟩ := q
    have hqmem : ((q1, q2) : Coord × TileDirection) ∈ m.get_neighbor_coords_and_dirs c :=
      List.mem_of_find?_eq_some hfind
    have hqd : q2 = d := by
      have := List.find?_some hfind
      simpa using this
    subst hqd
    have hq1 : q1 = p := by
      obtain ⟨_, hcase1⟩ := Maze.mem_neighbors_elim m c p q2 hm
      obtain ⟨_, hcase2⟩ := Maze.mem_neighbors_elim m c q1 q2 hqmem
      rcases hcase1 with ⟨hd, hp⟩ | ⟨hd, hp⟩ | ⟨hd, h1, hp⟩ | ⟨hd, h2, hp⟩ <;> subst hd <;>
        [skip; skip; skip; skip] <;>
        rcases hcase2 with ⟨hd2, hp2⟩ | ⟨hd2, hp2⟩ | ⟨hd2, h12, hp2⟩ | ⟨hd2, h22, hp2⟩ <;>
        simp_all
    rw [hq1]

theorem Maze.neighbors_congr (m m' : Maze) (hsz : m'.size = m.size) (c : Coord) :
    m'.get_neighbor_coords_and_dirs c = m.get_neighbor_coords_and_dirs c := by
  unfold Maze.get_neighbor_coords_and_dirs
  dsimp only
  congr 1
  funext p
  rw [Maze.is_valid_coord_congr m m' hsz]

theorem Maze.shared_wall_congr (m m' : Maze) (hsz : m'.size = m.size) (c : Coord)
    (d : TileDirection) :
    m'.get_neighbor_coord_and_shared_wall c d = m.get_neighbor_coord_and_shared_wall c d := by
  unfold Maze.get_neighbor_coord_and_shared_wall
  rw [Maze.neighbors_congr m m' hsz]

theorem Maze.is_wall_enabled_of_edge (m : Maze) (x : Coord) (e : TileDirection)
    (h : m.is_edge_wall x e = true) : m.is_wall_enabled x e = true := by
  unfold Maze.is_wall_enabled
  rw [if_pos h]

theorem Maze.is_wall_enabled_flag (m : Maze) (x : Coord) (e : TileDirection) (cell : Cell)
    (h : m.is_edge_wall x e = false) (hcell : m.get_cell x = some cell) :
    m.is_wall_enabled x e = cell.is_wall_enabled e := by
  unfold Maze.is_wall_enabled
  rw [if_neg (by simp [h]), hcell]

theorem Maze.is_wall_enabled_congr (m m' : Maze) (hsz : m'.size = m.size) (x : Coord)
    (hg : m'.get_cell x = m.get_cell x) (e : TileDirection) :
    m'.is_wall_enabled x e = m.is_wall_enabled x e := by
  unfold Maze.is_wall_enabled
  rw [Maze.is_edge_wall_congr m m' hsz, hg]

theorem Maze.disable_wall_form (m : Maze) (c p : Coord) (d : TileDirection)
    (hm : (p, d) ∈ m.get_neighbor_coords_and_dirs c) :
    m.disable_wall c d =
      (m.modifyCell c (fun cl => cl.disable_wall d)).modifyCell p
        (fun cl => cl.disable_wall (Maze.get_opposite d)) := by
  have hedge : m.is_edge_wall c d = false := Maze.not_edge_of_mem_neighbors m c p d hm
  unfold Maze.disable_wall
  rw [if_neg (by simp [hedge])]
  dsimp only
  rw [Maze.shared_wall_congr m (m.modifyCell c fun cl => cl.disable_wall d) rfl,
    Maze.find_neighbor m c p d hm]

theorem Maze.disable_wall_effect (m : Maze) (c p : Coord) (d : TileDirection)
    (hwf : MazeWF m) (hc : m.is_valid_coord c = true)
    (hm : (p, d) ∈ m.get_neighbor_coords_and_dirs c) (x : Coord) (e : TileDirection) :
    (m.disable_wall c d).is_wall_enabled x e =
    if (x = c ∧ e = d) ∨ (x = p ∧ e = Maze.get_opposite d) then false
    else m.is_wall_enabled x e := by
  have hedge : m.is_edge_wall c d = false := Maze.not_edge_of_mem_neighbors m c p d hm
  have hedgep : m.is_edge_wall p (Maze.get_opposite d) = false :=
    Maze.not_edge_opposite_of_mem_neighbors m c p d hc hm
  have hpv : m.is_valid_coord p = true := (Maze.mem_neighbors_elim m c p d hm).1
  have hpc : p ≠ c := (Maze.mem_neighbors_facts m c p d hm).2.2.2
  rw [Maze.disable_wall_form m c p d hm]
  have hszM : (((m.modifyCell c fun cl => cl.disable_wall d)).modifyCell p
      (fun cl => cl.disable_wall (Maze.get_opposite d))).size = m.size := rfl
  by_cases hxe : m.is_edge_wall x e = true
  · have hcond : ¬((x = c ∧ e = d) ∨ (x = p ∧ e = Maze.get_opposite d)) := by
      rintro (⟨rfl, rfl⟩ | ⟨rfl, rfl⟩)
      · rw [hedge] at hxe
        exact Bool.false_ne_true hxe
      · rw [hedgep] at hxe
        exact Bool.false_ne_true hxe
    rw [if_neg hcond, Maze.is_wall_enabled_of_edge _ x e (by
        rw [Maze.is_edge_wall_congr m _ hszM]
        exact hxe),
      Maze.is_wall_enabled_of_edge m x e hxe]
  · have hxe2 : (((m.modifyCell c fun cl => cl.disable_wall d)).modifyCell p
        (fun cl => cl.disable_wall (Maze.get_opposite d))).is_edge_wall x e = false := by
      rw [Maze.is_edge_wall_congr m _ hszM]
      simpa using hxe
    have hxe' : m.is_edge_wall x e = false := by simpa using hxe
    by_cases hxp : x = p
    · subst hxp
      obtain ⟨cellp, hcellp⟩ := Maze.get_cell_isSome m x hwf hpv
      have hget : (((m.modifyCell c fun cl => cl.disable_wall d)).modifyCell x
          (fun cl => cl.disable_wall (Maze.get_opposite d))).get_cell x =
          some (cellp.disable_wall (Maze.get_opposite d)) := by
        rw [Maze.get_cell_modifyCell, if_pos rfl, Maze.get_cell_modifyCell, if_neg hpc, hcellp]
        rfl
      rw [Maze.is_wall_enabled_flag _ x e _ hxe2 hget, Cell.is_wall_enabled_disable]
      by_cases hed : e = Maze.get_opposite d
      · rw [if_pos hed, if_pos (Or.inr ⟨rfl, hed⟩)]
      · have hcond : ¬((x = c ∧ e = d) ∨ (x = x ∧ e = Maze.get_opposite d)) := by
          rintro (⟨hh, _⟩ | ⟨_, hh⟩)
          · exact hpc hh
          · exact hed hh
        rw [if_neg hed, if_neg hcond, Maze.is_wall_enabled_flag m x e cellp hxe' hcellp]
    · by_cases hxc : x = c
      · subst hxc
        obtain ⟨cellc, hcellc⟩ := Maze.get_cell_isSome m x hwf hc
        have hget : (((m.modifyCell x fun cl => cl.disable_wall d)).modifyCell p
            (fun cl => cl.disable_wall (Maze.get_opposite d))).get_cell x =
            some (cellc.disable_wall d) := by
          rw [Maze.get_cell_modifyCell, if_neg hxp, Maze.get_cell_modifyCell, if_pos rfl, hcellc]
          rfl
        rw [Maze.is_wall_enabled_flag _ x e _ hxe2 hget, Cell.is_wall_enabled_disable]
        by_cases hed : e = d
        · rw [if_pos hed, if_pos (Or.inl ⟨rfl, hed⟩)]
        · have hcond : ¬((x = x ∧ e = d) ∨ (x = p ∧ e = Maze.get_opposite d)) := by
            rintro (⟨_, hh⟩ | ⟨hh, _⟩)
            · exact hed hh
            · exact hxp hh
          rw [if_neg hed, if_neg hcond, Maze.is_wall_enabled_flag m x e cellc hxe' hcellc]
      · have hcond : ¬((x = c ∧ e = d) ∨ (x = p ∧ e = Maze.get_opposite d)) := by
          rintro (⟨hh, _⟩ | ⟨hh, _⟩)
          · exact hxc hh
          · exact hxp hh
        rw [if_neg hcond]
        apply Maze.is_wall_enabled_congr m _ hszM
        rw [Maze.get_cell_modifyCell, if_neg hxp, Maze.get_cell_modifyCell, if_neg hxc]

theorem Maze.neighbor_exists_of_not_edge (m : Maze) (c : Coord) (d : TileDirection)
    (hc : m.is_valid_coord c = true) (hedge : m.is_edge_wall c d = false) :
    ∃ p, (p, d) ∈ m.get_neighbor_coords_and_dirs c := by
  have hc' := hc
  unfold Maze.is_valid_coord at hc'
  simp only [Bool.and_eq_true, decide_eq_true_eq] at hc'
  obtain ⟨h1, h2⟩ := hc'
  cases d with
  | EAST =>
    simp only [Maze.is_edge_wall, beq_eq_false_iff_ne, ne_eq] at hedge
    refine ⟨(c.1 + 1, c.2), Maze.neighbors_east m c ?_⟩
    unfold Maze.is_valid_coord
    simp only [Bool.and_eq_true, decide_eq_true_eq]
    omega
  | SOUTH =>
    simp only [Maze.is_edge_wall, beq_eq_false_iff_ne, ne_eq] at hedge
    refine ⟨(c.1, c.2 + 1), Maze.neighbors_south m c ?_⟩
    unfold Maze.is_valid_coord
    simp only [Bool.and_eq_true, decide_eq_true_eq]
    omega
  | WEST =>
    simp only [Maze.is_edge_wall, beq_eq_false_iff_ne, ne_eq] at hedge
    refine ⟨(c.1 - 1, c.2), Maze.neighbors_west m c (by omega) ?_⟩
    unfold Maze.is_valid_coord
    simp only [Bool.and_eq_true, decide_eq_true_eq]
    omega
  | NORTH =>
    simp only [Maze.is_edge_wall, beq_eq_false_iff_ne, ne_eq] at hedge
    refine ⟨(c.1, c.2 - 1), Maze.neighbors_north m c (by omega) ?_⟩
    unfold Maze.is_valid_coord
    simp only [Bool.and_eq_true, decide_eq_true_eq]
    omega

theorem Maze.enable_wall_form (m : Maze) (c p : Coord) (d : TileDirection)
    (hm : (p, d) ∈ m.get_neighbor_coords_and_dirs c) :
    m.enable_wall c d =
      (m.modifyCell c (fun cl => cl.enable_wall d)).modifyCell p
        (fun cl => cl.enable_wall (Maze.get_opposite d)) := by
  have hedge : m.is_edge_wall c d = false := Maze.not_edge_of_mem_neighbors m c p d hm
  unfold Maze.enable_wall
  rw [if_neg (by simp [hedge])]
  dsimp only
  rw [Maze.shared_wall_congr m (m.modifyCell c fun cl => cl.enable_wall d) rfl,
    Maze.find_neighbor m c p d hm]

theorem Maze.enable_wall_idem (m : Maze) (c : Coord) (d : TileDirection)
    (hc : m.is_valid_coord c = true) :
    (m.enable_wall c d).enable_wall c d = m.enable_wall c d := by
  by_cases hedge : m.is_edge_wall c d = true
  · have h1 : m.enable_wall c d = m := by
      unfold Maze.enable_wall
      rw [if_pos hedge]
    rw [h1, h1]
  · have hedge' : m.is_edge_wall c d = false := by simpa using hedge
    obtain ⟨p, hm⟩ := Maze.neighbor_exists_of_not_edge m c d hc hedge'
    have hpc : p ≠ c := (Maze.mem_neighbors_facts m c p d hm).2.2.2
    have hform := Maze.enable_wall_form m c p d hm
    have hm1 : (p, d) ∈ (m.enable_wall c d).get_neighbor_coords_and_dirs c := by
      rw [Maze.neighbors_congr m _ (Maze.size_enable_wall m c d)]
      exact hm
    rw [Maze.enable_wall_form (m.enable_wall c d) c p d hm1]
    have hstep1 : (m.enable_wall c d).modifyCell c (fun cl => cl.enable_wall d) =
        m.enable_wall c d := by
      apply Maze.modifyCell_eq_self
      intro cell hcell
      rw [hform, Maze.get_cell_modifyCell, if_neg (fun hh => hpc hh.symm),
        Maze.get_cell_modifyCell, if_pos rfl] at hcell
      cases hmc : m.get_cell c with
      | none => rw [hmc] at hcell; simp at hcell
      | some cell0 =>
        rw [hmc] at hcell
        simp only [Option.map_some', Option.some.injEq] at hcell
        rw [← hcell]
        exact Cell.enable_enable cell0 d
    rw [hstep1]
    apply Maze.modifyCell_eq_self
    intro cell hcell
    rw [hform, Maze.get_cell_modifyCell, if_pos rfl, Maze.get_cell_modifyCell,
      if_neg hpc] at hcell
    cases hmp : m.get_cell p with
    | none => rw [hmp] at hcell; simp at hcell
    | some cellp =>
      rw [hmp] at hcell
      simp only [Option.map_some', Option.some.injEq] at hcell
      rw [← hcell]
      exact Cell.enable_enable cellp (Maze.get_opposite d)

theorem Maze.disable_wall_idem (m : Maze) (c : Coord) (d : TileDirection)
    (hc : m.is_valid_coord c = true) :
    (m.disable_wall c d).disable_wall c d = m.disable_wall c d := by
  by_cases hedge : m.is_edge_wall c d = true
  · have h1 : m.disable_wall c d = m := by
      unfold Maze.disable_wall
      rw [if_pos hedge]
    rw [h1, h1]
  · have hedge' : m.is_edge_wall c d = false := by simpa using hedge
    obtain ⟨p, hm⟩ := Maze.neighbor_exists_of_not_edge m c d hc hedge'
    have hpc : p ≠ c := (Maze.mem_neighbors_facts m c p d hm).2.2.2
    have hform := Maze.disable_wall_form m c p d hm
    have hm1 : (p, d) ∈ (m.disable_wall c d).get_neighbor_coords_and_dirs c := by
      rw [Maze.neighbors_congr m _ (Maze.size_disable_wall m c d)]
      exact hm
    rw [Maze.disable_wall_form (m.disable_wall c d) c p d hm1]
    have hstep1 : (m.disable_wall c d).modifyCell c (fun cl => cl.disable_wall d) =
        m.disable_wall c d := by
      apply Maze.modifyCell_eq_self
      intro cell hcell
      rw [hform, Maze.get_cell_modifyCell, if_neg (fun hh => hpc hh.symm),
        Maze.get_cell_modifyCell, if_pos rfl] at hcell
      cases hmc : m.get_cell c with
      | none => rw [hmc] at hcell; simp at hcell
      | some cell0 =>
        rw [hmc] at hcell
        simp only [Option.map_some', Option.some.injEq] at hcell
        rw [← hcell]
        exact Cell.disable_disable cell0 d
    rw [hstep1]
    apply Maze.modifyCell_eq_self
    intro cell hcell
    rw [hform, Maze.get_cell_modifyCell, if_pos rfl, Maze.get_cell_modifyCell,
      if_neg hpc] at hcell
    cases hmp : m.get_cell p with
    | none => rw [hmp] at hcell; simp at hcell
    | some cellp =>
      rw [hmp] at hcell
      simp only [Option.map_some', Option.some.injEq] at hcell
      rw [← hcell]
      exact Cell.disable_disable cellp (Maze.get_opposite d)

theorem MazeWF_new (size : Size) : MazeWF (Maze.new size) := by
  constructor
  · simp [Maze.new]
  · intro row hrow
    simp only [Maze.new, List.mem_map, List.mem_range] at hrow
    obtain ⟨i, _, hrw⟩ := hrow
    rw [← hrw]
    simp [Maze.new]

/-- C2: falsified at the code — immediately after `Maze::new` on a 2×2 grid
the cells (1,0) and (1,1) are in bounds and adjacent via SOUTH, yet
`is_wall_enabled((1,0), SOUTH) = true` while
`is_wall_enabled((1,1), NORTH) = false`: the bidirectional symmetry
invariant does not hold after construction (the constructor pre-enables
SOUTH on every cell of column `height-1`, against its own `// south edge`
comment). -/
theorem wall_symmetry_violation_after_new :
    (Maze.new ⟨2, 2⟩).is_valid_coord (1, 0) = true ∧
    (Maze.new ⟨2, 2⟩).is_valid_coord (1, 1) = true ∧
    adjacentB (1, 0) (1, 1) = true ∧
    dirTo (1, 0) (1, 1) = TileDirection.SOUTH ∧
    Maze.get_opposite TileDirection.SOUTH = TileDirection.NORTH ∧
    (Maze.new ⟨2, 2⟩).is_wall_enabled (1, 0) TileDirection.SOUTH = true ∧
    (Maze.new ⟨2, 2⟩).is_wall_enabled (1, 1) TileDirection.NORTH = false := by
  decide

/-- C3: for every maze state, an in-bounds coordinate on the grid edge with
its outward-facing direction reports an enabled wall, and still does so
after any `disable_wall` call and after `disable_all_walls` — boundary
walls cannot be disabled through the public mutation API. -/
theorem boundary_walls_permanent (m : Maze) (c : Coord) (d : TileDirection)
    (_hc : m.is_valid_coord c = true) (hedge : m.is_edge_wall c d = true)
    (c' : Coord) (d' : TileDirection) :
    m.is_wall_enabled c d = true ∧
    (m.disable_wall c' d').is_wall_enabled c d = true ∧
    (m.disable_all_walls).is_wall_enabled c d = true := by
  refine ⟨Maze.is_wall_enabled_of_edge m c d hedge, ?_, ?_⟩
  · apply Maze.is_wall_enabled_of_edge
    rw [Maze.is_edge_wall_congr m _ (Maze.size_disable_wall m c' d')]
    exact hedge
  · apply Maze.is_wall_enabled_of_edge
    rw [Maze.is_edge_wall_congr m _ (Maze.size_disable_all_walls m)]
    exact hedge

/-- Witness for C3 at a concrete input: the WEST wall of (0,0) in a 2×2
grid survives a `disable_wall` call and `disable_all_walls`. -/
theorem boundary_walls_permanent_witness :
    (Maze.new ⟨2, 2⟩).is_wall_enabled (0, 0) TileDirection.WEST = true ∧
    ((Maze.new ⟨2, 2⟩).disable_wall (0, 0) TileDirection.EAST).is_wall_enabled (0, 0)
      TileDirection.WEST = true ∧
    ((Maze.new ⟨2, 2⟩).disable_all_walls).is_wall_enabled (0, 0) TileDirection.WEST = true :=
  boundary_walls_permanent (Maze.new ⟨2, 2⟩) (0, 0) TileDirection.WEST (by decide) (by decide)
    (0, 0) TileDirection.EAST

/-- C6: falsified at the code — in a 3×2 grid the constructor pre-enables
the EAST and SOUTH flags of cell (1,0), although its column 1 is neither
`width - 1 = 2` (EAST per the claim) nor is its row 0 equal to
`height - 1 = 1` (SOUTH per the claim): both conditions of `Maze::new`
test `i == size.height - 1`, against the source's own edge comments. -/
theorem maze_new_boundary_flags_bug :
    ((Maze.new ⟨3, 2⟩).getCellD (1, 0)).is_wall_enabled TileDirection.EAST = true ∧
    ((Maze.new ⟨3, 2⟩).getCellD (1, 0)).is_wall_enabled TileDirection.SOUTH = true ∧
    (1 : Nat) ≠ 3 - 1 ∧ (0 : Nat) ≠ 2 - 1 := by
  decide

/-- C7: falsified as stated — immediately after `Maze::new` on a 2×2 grid
the internal wall between the in-bounds neighbors (0,0) and (1,0) is
disabled: cells start with an empty wall set and only the (buggy) boundary
pre-enabling runs at construction. -/
theorem internal_walls_disabled_after_new :
    (Maze.new ⟨2, 2⟩).is_valid_coord (0, 0) = true ∧
    (Maze.new ⟨2, 2⟩).is_valid_coord (1, 0) = true ∧
    ((1, 0), TileDirection.EAST) ∈ (Maze.new ⟨2, 2⟩).get_neighbor_coords_and_dirs (0, 0) ∧
    (Maze.new ⟨2, 2⟩).is_wall_enabled (0, 0) TileDirection.EAST = false := by
  decide

/-- C7 (amended): every internal wall is enabled once `enable_all_walls`
has run on a freshly constructed grid (which is the first thing
`MazeGen::generate` does): for every in-bounds coordinate and direction
whose neighbor is in bounds, `is_wall_enabled` returns `true`. -/
theorem internal_walls_enabled_after_enable_all (size : Size) (c p : Coord) (d : TileDirection)
    (hm : (p, d) ∈ (Maze.new size).get_neighbor_coords_and_dirs c)
    (hc : (Maze.new size).is_valid_coord c = true) :
    ((Maze.new size).enable_all_walls).is_wall_enabled c d = true := by
  have _ := hm
  exact Maze.enable_all_walls_wall (Maze.new size) (MazeWF_new size) c d hc

/-- Witness for the amended C7 at a concrete input. -/
theorem internal_walls_enabled_after_enable_all_witness :
    ((Maze.new ⟨2, 2⟩).enable_all_walls).is_wall_enabled (0, 0) TileDirection.EAST = true :=
  internal_walls_enabled_after_enable_all ⟨2, 2⟩ (0, 0) (1, 0) TileDirection.EAST (by decide)
    (by decide)

/-- C9: falsified at the code — `Maze::new` (and `MazeGen::new`) performs
no validation: with width 0 it silently returns a maze with no cells (and
an empty set of cells to visit) instead of rejecting the input. -/
theorem maze_new_width_zero_silent :
    (Maze.new ⟨0, 5⟩).cells = [] ∧ (Maze.new ⟨0, 5⟩).size = ⟨0, 5⟩ ∧
    (MazeGen.new ⟨0, 5⟩).left_to_visit = ∅ := by
  decide

/-- C9 (amended): the constructor accepts any size without validation; a
zero width always silently yields a grid with an empty cell array. -/
theorem maze_new_no_validation (h : Nat) : (Maze.new ⟨0, h⟩).cells = [] := by
  simp [Maze.new]

/-- C10: wall mutation is idempotent — for every maze state and in-bounds
coordinate, calling `enable_wall` (resp. `disable_wall`) twice with the
same arguments produces the same state as calling it once. -/
theorem wall_mutation_idempotent (m : Maze) (c : Coord) (d : TileDirection)
    (hc : m.is_valid_coord c = true) :
    (m.enable_wall c d).enable_wall c d = m.enable_wall c d ∧
    (m.disable_wall c d).disable_wall c d = m.disable_wall c d :=
  ⟨Maze.enable_wall_idem m c d hc, Maze.disable_wall_idem m c d hc⟩

/-- Witness for C10 at a concrete input. -/
theorem wall_mutation_idempotent_witness :
    ((Maze.new ⟨2, 2⟩).enable_wall (0, 0) TileDirection.EAST).enable_wall (0, 0)
      TileDirection.EAST = (Maze.new ⟨2, 2⟩).enable_wall (0, 0) TileDirection.EAST ∧
    ((Maze.new ⟨2, 2⟩).disable_wall (0, 0) TileDirection.EAST).disable_wall (0, 0)
      TileDirection.EAST = (Maze.new ⟨2, 2⟩).disable_wall (0, 0) TileDirection.EAST :=
  wall_mutation_idempotent (Maze.new ⟨2, 2⟩) (0, 0) TileDirection.EAST (by decide)

theorem count_hash_pairs (l : List Nat) (f : Nat → Bool) :
    ((l.flatMap (fun i => [' ', if f i then '#' else ' ']))).count '#' = l.countP f := by
  induction l with
  | nil => rfl
  | cons a t ih =>
    rw [List.flatMap_cons, List.count_append, List.countP_cons, ih]
    by_cases hf : f a = true
    · rw [if_pos hf, hf]
      simp [List.count_cons]
      omega
    · rw [if_neg hf]
      simp only [Bool.not_eq_true] at hf
      rw [hf]
      simp [List.count_cons]

theorem count_space_pairs (l : List Nat) (f : Nat → Bool) :
    ((l.flatMap (fun i => [if f i then '#' else ' ', '#']))).count ' ' =
      l.countP (fun i => !(f i)) := by
  induction l with
  | nil => rfl
  | cons a t ih =>
    rw [List.flatMap_cons, List.count_append, List.countP_cons, ih]
    by_cases hf : f a = true
    · rw [if_pos hf, hf]
      simp [List.count_cons]
    · rw [if_neg hf]
      simp only [Bool.not_eq_true] at hf
      rw [hf]
      simp [List.count_cons]
      omega

theorem countP_add_countP_not (l : List Nat) (f : Nat → Bool) :
    l.countP f + l.countP (fun i => !(f i)) = l.length := by
  induction l with
  | nil => rfl
  | cons a t ih =>
    simp only [List.countP_cons, List.length_cons]
    by_cases hf : f a = true <;> simp [hf] <;> omega

theorem countP_flatMap {α β : Type} (l : List α) (g : α → List β) (p : β → Bool) :
    (l.flatMap g).countP p = (l.map (fun a => (g a).countP p)).sum := by
  induction l with
  | nil => rfl
  | cons a t ih => simp [List.flatMap_cons, List.countP_append, ih]

theorem renderWallLine_count (m : Maze) (j : Nat) :
    (m.renderWallLine j).count '#' =
      (List.range (m.size.width - 1)).countP
        (fun i => (m.getCellD (i, j)).is_wall_enabled TileDirection.EAST) := by
  unfold Maze.renderWallLine
  rw [List.count_append, List.count_append, count_hash_pairs]
  simp [List.count_cons]

theorem renderFloorLine_count (m : Maze) (j : Nat) :
    (m.renderFloorLine j).count ' ' =
      (List.range (m.size.width - 1)).countP
        (fun i => !((m.getCellD (i, j)).is_wall_enabled TileDirection.SOUTH)) := by
  unfold Maze.renderFloorLine
  rw [List.count_append, List.count_append, count_space_pairs]
  simp [List.count_cons]

theorem nonEdgeEnabledCount_split (m : Maze) (d : TileDirection) :
    m.nonEdgeEnabledCount d =
      ((List.range m.size.height).map (fun j =>
        (List.range m.size.width).countP
          (fun i => !(m.is_edge_wall (i, j) d) && m.is_wall_enabled (i, j) d))).sum := by
  unfold Maze.nonEdgeEnabledCount allCoordsList
  rw [countP_flatMap]
  congr 1
  apply List.map_congr_left
  intro j _
  rw [List.countP_map]
  rfl

theorem Maze.is_wall_enabled_eq_cellD (m : Maze) (hwf : MazeWF m) (c : Coord)
    (hv : m.is_valid_coord c = true) (d : TileDirection) (hedge : m.is_edge_wall c d = false) :
    m.is_wall_enabled c d = (m.getCellD c).is_wall_enabled d := by
  obtain ⟨cell, hcell⟩ := Maze.get_cell_isSome m c hwf hv
  rw [Maze.is_wall_enabled_flag m c d cell hedge hcell]
  unfold Maze.getCellD
  rw [hcell]
  rfl

theorem vert_row_count (m : Maze) (hwf : MazeWF m) (j : Nat) (hj : j < m.size.height)
    (hw : 0 < m.size.width) :
    (List.range m.size.width).countP
      (fun i => !(m.is_edge_wall (i, j) TileDirection.EAST) &&
        m.is_wall_enabled (i, j) TileDirection.EAST) =
    (List.range (m.size.width - 1)).countP
      (fun i => (m.getCellD (i, j)).is_wall_enabled TileDirection.EAST) := by
  have hsplit : List.range m.size.width =
      List.range (m.size.width - 1) ++ [m.size.width - 1] := by
    conv_lhs => rw [show m.size.width = (m.size.width - 1) + 1 from by omega]
    rw [List.range_succ]
  rw [hsplit, List.countP_append]
  have hlast : List.countP (fun i => !(m.is_edge_wall (i, j) TileDirection.EAST) &&
      m.is_wall_enabled (i, j) TileDirection.EAST) [m.size.width - 1] = 0 := by
    simp [List.countP_cons, Maze.is_edge_wall]
  rw [hlast, Nat.add_zero]
  apply List.countP_congr
  intro i hi
  rw [List.mem_range] at hi
  have hedge : m.is_edge_wall (i, j) TileDirection.EAST = false := by
    simp only [Maze.is_edge_wall, beq_eq_false_iff_ne, ne_eq]
    omega
  have hv : m.is_valid_coord (i, j) = true := by
    unfold Maze.is_valid_coord
    simp only [Bool.and_eq_true, decide_eq_true_eq]
    omega
  rw [hedge, Maze.is_wall_enabled_eq_cellD m hwf (i, j) hv TileDirection.EAST hedge]
  simp

theorem horiz_row_count (m : Maze) (hwf : MazeWF m) (j : Nat) (hj : j < m.size.height - 1)
    (hw : 0 < m.size.width) :
    (List.range m.size.width).countP
      (fun i => decide (i < m.size.width - 1) &&
        (!(m.is_edge_wall (i, j) TileDirection.SOUTH) &&
         m.is_wall_enabled (i, j) TileDirection.SOUTH)) =
    (List.range (m.size.width - 1)).countP
      (fun i => (m.getCellD (i, j)).is_wall_enabled TileDirection.SOUTH) := by
  have hsplit : List.range m.size.width =
      List.range (m.size.width - 1) ++ [m.size.width - 1] := by
    conv_lhs => rw [show m.size.width = (m.size.width - 1) + 1 from by omega]
    rw [List.range_succ]
  rw [hsplit, List.countP_append]
  have hlast : List.countP (fun i => decide (i < m.size.width - 1) &&
      (!(m.is_edge_wall (i, j) TileDirection.SOUTH) &&
       m.is_wall_enabled (i, j) TileDirection.SOUTH)) [m.size.width - 1] = 0 := by
    simp [List.countP_cons]
  rw [hlast, Nat.add_zero]
  apply List.countP_congr
  intro i hi
  rw [List.mem_range] at hi
  have hedge : m.is_edge_wall (i, j) TileDirection.SOUTH = false := by
    simp only [Maze.is_edge_wall, beq_eq_false_iff_ne, ne_eq]
    omega
  have hv : m.is_valid_coord (i, j) = true := by
    unfold Maze.is_valid_coord
    simp only [Bool.and_eq_true, decide_eq_true_eq]
    omega
  rw [hedge, Maze.is_wall_enabled_eq_cellD m hwf (i, j) hv TileDirection.SOUTH hedge]
  simp only [Bool.not_false, Bool.true_and]
  constructor
  · intro hx
    simp only [Bool.and_eq_true] at hx
    exact hx.2
  · intro hx
    simp only [Bool.and_eq_true, decide_eq_true_eq]
    exact ⟨hi, hx⟩

/-- C8: falsified for the horizontal markers — on the fully walled 2×2 grid
the rendering shows exactly 1 interior horizontal wall marker while 2
non-boundary (coordinate, SOUTH) pairs have `is_wall_enabled = true`: the
renderer's column loop runs over `0..width-1` and never prints the SOUTH
wall of the last column.  (The vertical count does match; see the amended
theorem.) -/
theorem render_horiz_count_mismatch :
    ((Maze.new ⟨2, 2⟩).enable_all_walls).horizWallMarkerCount = 1 ∧
    ((Maze.new ⟨2, 2⟩).enable_all_walls).nonEdgeEnabledCount TileDirection.SOUTH = 2 := by
  decide

/-- C8 (amended): for every well-formed maze of positive size, the interior
vertical wall markers of the text rendering count exactly the non-boundary
(coordinate, EAST) pairs with `is_wall_enabled = true`, and the interior
horizontal wall markers count exactly the non-boundary (coordinate, SOUTH)
pairs with `is_wall_enabled = true` whose column is not the last one (the
renderer omits the last column's SOUTH walls). -/
theorem render_marker_counts (m : Maze) (hwf : MazeWF m) (hw : 0 < m.size.width)
    (hh : 0 < m.size.height) :
    m.vertWallMarkerCount = m.nonEdgeEnabledCount TileDirection.EAST ∧
    m.horizWallMarkerCount =
      (allCoordsList m.size.width m.size.height).countP
        (fun c => decide (c.1 < m.size.width - 1) &&
          (!(m.is_edge_wall c TileDirection.SOUTH) &&
           m.is_wall_enabled c TileDirection.SOUTH)) := by
  constructor
  · rw [nonEdgeEnabledCount_split]
    unfold Maze.vertWallMarkerCount
    congr 1
    apply List.map_congr_left
    intro j hj
    rw [List.mem_range] at hj
    rw [renderWallLine_count]
    exact (vert_row_count m hwf j hj hw).symm
  · have hsplitRHS : (allCoordsList m.size.width m.size.height).countP
        (fun c => decide (c.1 < m.size.width - 1) &&
          (!(m.is_edge_wall c TileDirection.SOUTH) &&
           m.is_wall_enabled c TileDirection.SOUTH)) =
        ((List.range m.size.height).map (fun j =>
          (List.range m.size.width).countP (fun i => decide (i < m.size.width - 1) &&
            (!(m.is_edge_wall (i, j) TileDirection.SOUTH) &&
             m.is_wall_enabled (i, j) TileDirection.SOUTH)))).sum := by
      unfold allCoordsList
      rw [countP_flatMap]
      congr 1
      apply List.map_congr_left
      intro j _
      rw [List.countP_map]
      rfl
    rw [hsplitRHS]
    have hsplith : List.range m.size.height =
        List.range (m.size.height - 1) ++ [m.size.height - 1] := by
      conv_lhs => rw [show m.size.height = (m.size.height - 1) + 1 from by omega]
      rw [List.range_succ]
    rw [hsplith, List.map_append, List.sum_append]
    have hlastrow : ((List.map (fun j => (List.range m.size.width).countP
        (fun i => decide (i < m.size.width - 1) &&
          (!(m.is_edge_wall (i, j) TileDirection.SOUTH) &&
           m.is_wall_enabled (i, j) TileDirection.SOUTH))) [m.size.height - 1])).sum = 0 := by
      simp only [List.map_cons, List.map_nil, List.sum_cons, List.sum_nil, Nat.add_zero]
      rw [List.countP_eq_zero]
      intro i _
      simp [Maze.is_edge_wall]
    rw [hlastrow, Nat.add_zero]
    unfold Maze.horizWallMarkerCount
    congr 1
    apply List.map_congr_left
    intro j hj
    rw [List.mem_range] at hj
    rw [renderFloorLine_count]
    have hsum := countP_add_countP_not (List.range (m.size.width - 1))
      (fun i => (m.getCellD (i, j)).is_wall_enabled TileDirection.SOUTH)
    rw [List.length_range] at hsum
    rw [horiz_row_count m hwf j hj hw]
    omega

/-- Witness for the amended C8 at a concrete input. -/
theorem render_marker_counts_witness :
    ((Maze.new ⟨2, 2⟩).enable_all_walls).vertWallMarkerCount =
      ((Maze.new ⟨2, 2⟩).enable_all_walls).nonEdgeEnabledCount TileDirection.EAST ∧
    ((Maze.new ⟨2, 2⟩).enable_all_walls).horizWallMarkerCount =
      (allCoordsList ((Maze.new ⟨2, 2⟩).enable_all_walls).size.width
          ((Maze.new ⟨2, 2⟩).enable_all_walls).size.height).countP
        (fun c => decide (c.1 < ((Maze.new ⟨2, 2⟩).enable_all_walls).size.width - 1) &&
          (!(((Maze.new ⟨2, 2⟩).enable_all_walls).is_edge_wall c TileDirection.SOUTH) &&
           ((Maze.new ⟨2, 2⟩).enable_all_walls).is_wall_enabled c TileDirection.SOUTH)) :=
  render_marker_counts ((Maze.new ⟨2, 2⟩).enable_all_walls)
    (MazeWF_enable_all_walls (Maze.new ⟨2, 2⟩) (MazeWF_new ⟨2, 2⟩)) (by decide) (by decide)

theorem validB_iff_is_valid (w h : Nat) (m : Maze) (hsz : m.size = ⟨w, h⟩) (c : Coord) :
    m.is_valid_coord c = validB w h c := by
  unfold Maze.is_valid_coord validB
  rw [hsz]

theorem adjacentB_symm (u v : Coord) (h : adjacentB u v = true) : adjacentB v u = true := by
  unfold adjacentB at *
  simp only [Bool.or_eq_true, Bool.and_eq_true, decide_eq_true_eq] at *
  omega

theorem adjacentB_cases (u v : Coord) (h : adjacentB u v = true) :
    (v = (u.1 + 1, u.2) ∧ dirTo u v = TileDirection.EAST) ∨
    (0 < u.1 ∧ v = (u.1 - 1, u.2) ∧ dirTo u v = TileDirection.WEST) ∨
    (v = (u.1, u.2 + 1) ∧ dirTo u v = TileDirection.SOUTH) ∨
    (0 < u.2 ∧ v = (u.1, u.2 - 1) ∧ dirTo u v = TileDirection.NORTH) := by
  unfold adjacentB at h
  simp only [Bool.or_eq_true, Bool.and_eq_true, decide_eq_true_eq] at h
  obtain ⟨v1, v2⟩ := v
  rcases h with ⟨h2, h1 | h1⟩ | ⟨h1, h2 | h2⟩
  · refine Or.inl ⟨?_, dirTo_east h1⟩
    simp only [Prod.mk.injEq]
    exact ⟨h1, h2.symm⟩
  · refine Or.inr (Or.inl ⟨by omega, ?_, dirTo_west h1⟩)
    simp only [Prod.mk.injEq]
    constructor
    · omega
    · exact h2.symm
  · refine Or.inr (Or.inr (Or.inl ⟨?_, dirTo_south h1.symm h2⟩))
    simp only [Prod.mk.injEq]
    exact ⟨h1.symm, h2⟩
  · refine Or.inr (Or.inr (Or.inr ⟨by omega, ?_, dirTo_north h1.symm h2⟩))
    simp only [Prod.mk.injEq]
    constructor
    · exact h1.symm
    · omega

theorem adjacent_dirTo_eq (u v v' : Coord) (h1 : adjacentB u v = true)
    (h2 : adjacentB u v' = true) (hd : dirTo u v = dirTo u v') : v = v' := by
  rcases adjacentB_cases u v h1 with ⟨hp, hdir⟩ | ⟨h0, hp, hdir⟩ | ⟨hp, hdir⟩ | ⟨h0, hp, hdir⟩ <;>
    rcases adjacentB_cases u v' h2 with ⟨hp', hdir'⟩ | ⟨h0', hp', hdir'⟩ | ⟨hp', hdir'⟩ |
      ⟨h0', hp', hdir'⟩ <;>
    rw [hdir, hdir'] at hd <;> first
    | (exact absurd hd (by decide))
    | (rw [hp, hp'])

theorem chooseFrom_none {α : Type} (seq : Nat → Nat) (k : Nat) (l : List α)
    (h : chooseFrom seq k l = none) : l = [] := by
  unfold chooseFrom at h
  split at h
  case isTrue hl => exact List.length_eq_zero.mp hl
  case isFalse => simp at h

theorem chooseFrom_mem {α : Type} (seq : Nat → Nat) (k : Nat) (l : List α) (x : α)
    (h : chooseFrom seq k l = some x) : x ∈ l := by
  unfold chooseFrom at h
  split at h
  case isTrue => simp at h
  case isFalse hl =>
    simp only [Option.some.injEq] at h
    rw [← h]
    exact List.get_mem l _ _

theorem genGuard_false_elim (s : GenState) (h : genGuard s = false) :
    s.path_stack = [] ∧ s.left_to_visit = ∅ := by
  unfold genGuard at h
  simp only [Bool.or_eq_false_iff, decide_eq_false_iff_not, Bool.not_eq_false',
    decide_eq_true_eq] at h
  obtain ⟨h1, h2⟩ := h
  refine ⟨List.length_eq_zero.mp (by omega), h2⟩

theorem genGuard_true_elim (s : GenState) (h : genGuard s = true) :
    s.path_stack ≠ [] ∨ s.left_to_visit ≠ ∅ := by
  by_cases h1 : s.path_stack = []
  · right
    unfold genGuard at h
    simp only [Bool.or_eq_true, decide_eq_true_eq, Bool.not_eq_true', decide_eq_false_iff_not]
      at h
    rcases h with hlen | hne
    · rw [h1] at hlen
      simp at hlen
    · exact hne
  · exact Or.inl h1

theorem grid_step (w h : Nat) (u v : Coord) (hu1 : u.1 < w) (hu2 : u.2 < h)
    (hv1 : v.1 < w) (hv2 : v.2 < h) (hadj : adjacentB u v = true) :
    validB w h u = true ∧ validB w h v = true ∧ adjacentB u v = true := by
  unfold validB
  simp only [Bool.and_eq_true, decide_eq_true_eq]
  exact ⟨⟨hu1, hu2⟩, ⟨hv1, hv2⟩, hadj⟩

theorem grid_connected_col (w h : Nat) (hh : 0 < h) :
    ∀ c1, c1 < w → Relation.ReflTransGen (fun u v => validB w h u = true ∧
      validB w h v = true ∧ adjacentB u v = true) (0, 0) (c1, 0) := by
  intro c1
  induction c1 with
  | zero => intro _; exact Relation.ReflTransGen.refl
  | succ n ih =>
    intro hn
    refine Relation.ReflTransGen.tail (ih (by omega)) ?_
    refine grid_step w h (n, 0) (n + 1, 0) ?_ hh ?_ hh ?_
    · show n < w
      omega
    · show n + 1 < w
      omega
    unfold adjacentB
    simp only [Bool.or_eq_true, Bool.and_eq_true, decide_eq_true_eq]
    tauto

theorem grid_connected_row (w h : Nat) (c1 : Nat) (hc1 : c1 < w) :
    ∀ c2, c2 < h → Relation.ReflTransGen (fun u v => validB w h u = true ∧
      validB w h v = true ∧ adjacentB u v = true) (c1, 0) (c1, c2) := by
  intro c2
  induction c2 with
  | zero => intro _; exact Relation.ReflTransGen.refl
  | succ n ih =>
    intro hn
    refine Relation.ReflTransGen.tail (ih (by omega)) ?_
    refine grid_step w h (c1, n) (c1, n + 1) hc1 ?_ hc1 ?_ ?_
    · show n < h
      omega
    · show n + 1 < h
      omega
    unfold adjacentB
    simp only [Bool.or_eq_true, Bool.and_eq_true, decide_eq_true_eq]
    tauto

theorem grid_connected (w h : Nat) (c : Coord) (hc : validB w h c = true) :
    Relation.ReflTransGen (fun u v => validB w h u = true ∧ validB w h v = true ∧
      adjacentB u v = true) (0, 0) c := by
  have hc' := hc
  unfold validB at hc'
  simp only [Bool.and_eq_true, decide_eq_true_eq] at hc'
  obtain ⟨hc1, hc2⟩ := hc'
  have hpart1 := grid_connected_col w h (by omega) c.1 hc1
  have hpart2 := grid_connected_row w h c.1 hc1 c.2 hc2
  exact Relation.ReflTransGen.trans hpart1 hpart2

theorem carvedB_elim (w h : Nat) (m : Maze) (u v : Coord) (hcv : carvedB w h m u v = true) :
    adjacentB u v = true ∧ validB w h u = true ∧ validB w h v = true ∧
    m.is_wall_enabled u (dirTo u v) = false ∧ m.is_wall_enabled v (dirTo v u) = false := by
  unfold carvedB at hcv
  simp only [Bool.and_eq_true, Bool.not_eq_true'] at hcv
  tauto

theorem carvedB_intro (w h : Nat) (m : Maze) (u v : Coord) (h1 : adjacentB u v = true)
    (h2 : validB w h u = true) (h3 : validB w h v = true)
    (h4 : m.is_wall_enabled u (dirTo u v) = false)
    (h5 : m.is_wall_enabled v (dirTo v u) = false) : carvedB w h m u v = true := by
  unfold carvedB
  simp only [Bool.and_eq_true, Bool.not_eq_true']
  tauto

theorem carvedB_disable_iff (w h : Nat) (m : Maze) (hsz : m.size = ⟨w, h⟩) (hwf : MazeWF m)
    (c p : Coord) (d : TileDirection) (hc : m.is_valid_coord c = true)
    (hm : (p, d) ∈ m.get_neighbor_coords_and_dirs c) (u v : Coord) :
    carvedB w h (m.disable_wall c d) u v = true ↔
      (carvedB w h m u v = true ∨ (u = c ∧ v = p) ∨ (u = p ∧ v = c)) := by
  obtain ⟨hadjcp, hdircp, hdirpc, hpc⟩ := Maze.mem_neighbors_facts m c p d hm
  have hpv : m.is_valid_coord p = true := (Maze.mem_neighbors_elim m c p d hm).1
  have hcB : validB w h c = true := by rw [← validB_iff_is_valid w h m hsz]; exact hc
  have hpB : validB w h p = true := by rw [← validB_iff_is_valid w h m hsz]; exact hpv
  constructor
  · intro hcv'
    obtain ⟨hadj, hvu, hvv, hw1, hw2⟩ := carvedB_elim w h _ u v hcv'
    rw [Maze.disable_wall_effect m c p d hwf hc hm u (dirTo u v)] at hw1
    rw [Maze.disable_wall_effect m c p d hwf hc hm v (dirTo v u)] at hw2
    by_cases hC1 : (u = c ∧ dirTo u v = d) ∨ (u = p ∧ dirTo u v = Maze.get_opposite d)
    · rcases hC1 with ⟨rfl, hdv⟩ | ⟨rfl, hdv⟩
      · refine Or.inr (Or.inl ⟨rfl, ?_⟩)
        exact adjacent_dirTo_eq u v p hadj hadjcp (by rw [hdv, hdircp])
      · refine Or.inr (Or.inr ⟨rfl, ?_⟩)
        exact adjacent_dirTo_eq u v c hadj (adjacentB_symm c u hadjcp) (by rw [hdv, hdirpc])
    · rw [if_neg hC1] at hw1
      by_cases hC2 : (v = c ∧ dirTo v u = d) ∨ (v = p ∧ dirTo v u = Maze.get_opposite d)
      · rcases hC2 with ⟨rfl, hdv⟩ | ⟨rfl, hdv⟩
        · refine Or.inr (Or.inr ⟨?_, rfl⟩)
          exact adjacent_dirTo_eq v u p (adjacentB_symm u v hadj) hadjcp (by rw [hdv, hdircp])
        · refine Or.inr (Or.inl ⟨?_, rfl⟩)
          exact adjacent_dirTo_eq v u c (adjacentB_symm u v hadj) (adjacentB_symm c v hadjcp)
            (by rw [hdv, hdirpc])
      · rw [if_neg hC2] at hw2
        exact Or.inl (carvedB_intro w h m u v hadj hvu hvv hw1 hw2)
  · have hfalse : ∀ x e, m.is_wall_enabled x e = false →
        (m.disable_wall c d).is_wall_enabled x e = false := by
      intro x e hxe
      rw [Maze.disable_wall_effect m c p d hwf hc hm x e]
      split
      · rfl
      · exact hxe
    intro hor
    rcases hor with hcv | ⟨huc, hvp⟩ | ⟨hup, hvc⟩
    · obtain ⟨hadj, hvu, hvv, hw1, hw2⟩ := carvedB_elim w h m u v hcv
      exact carvedB_intro w h _ u v hadj hvu hvv (hfalse _ _ hw1) (hfalse _ _ hw2)
    · rw [huc, hvp]
      refine carvedB_intro w h _ c p hadjcp hcB hpB ?_ ?_
      · rw [Maze.disable_wall_effect m c p d hwf hc hm c (dirTo c p)]
        rw [if_pos (Or.inl ⟨rfl, hdircp⟩)]
      · rw [Maze.disable_wall_effect m c p d hwf hc hm p (dirTo p c)]
        rw [if_pos (Or.inr ⟨rfl, hdirpc⟩)]
    · rw [hup, hvc]
      refine carvedB_intro w h _ p c (adjacentB_symm c p hadjcp) hpB hcB ?_ ?_
      · rw [Maze.disable_wall_effect m c p d hwf hc hm p (dirTo p c)]
        rw [if_pos (Or.inr ⟨rfl, hdirpc⟩)]
      · rw [Maze.disable_wall_effect m c p d hwf hc hm c (dirTo c p)]
        rw [if_pos (Or.inl ⟨rfl, hdircp⟩)]

theorem no_unvisited_neighbor (w h : Nat) (s : GenState) (hsz : s.maze.size = ⟨w, h⟩)
    (hcv : validB w h s.coord = true)
    (hnil : s.get_valid_neighbor_coords_and_dirs s.coord = []) :
    ∀ p, validB w h p = true → adjacentB s.coord p = true → p ∉ s.left_to_visit := by
  intro p hpv hadj hmem
  have _ := hcv
  have hpvalid : s.maze.is_valid_coord p = true := by
    rw [validB_iff_is_valid w h s.maze hsz]
    exact hpv
  have hmem2 : (p, dirTo s.coord p) ∈ s.maze.get_neighbor_coords_and_dirs s.coord :=
    Maze.mem_neighbors_of_adjacent s.maze s.coord p hadj hpvalid
  have hmem3 : (p, dirTo s.coord p) ∈ s.get_valid_neighbor_coords_and_dirs s.coord := by
    unfold GenState.get_valid_neighbor_coords_and_dirs
    rw [List.mem_filter]
    refine ⟨hmem2, by simpa using hmem⟩
  rw [hnil] at hmem3
  cases hmem3

theorem pop_safety (w h : Nat) (s : GenState) (inv : GenInv w h s)
    (hstack : s.path_stack = [])
    (hnil : s.get_valid_neighbor_coords_and_dirs s.coord = []) :
    s.left_to_visit = ∅ := by
  by_contra hne
  obtain ⟨x, hx⟩ := Finset.nonempty_iff_ne_empty.mpr hne
  have hxv : validB w h x = true := inv.ltv_valid x hx
  have hclosed : ∀ y, Relation.ReflTransGen (fun u v => validB w h u = true ∧
      validB w h v = true ∧ adjacentB u v = true) (0, 0) y → y ∉ s.left_to_visit := by
    intro y hy
    induction hy with
    | refl => exact inv.root_vis
    | @tail b y2 hab hbc ih =>
      obtain ⟨hvb, hvy, hadj⟩ := hbc
      by_cases hbcur : b = s.coord
      · exact no_unvisited_neighbor w h s inv.size_eq inv.cur_valid hnil y2 hvy (hbcur ▸ hadj)
      · refine inv.closure b hvb ih ?_ y2 hvy hadj
        rw [hstack]
        simp [hbcur]
  exact hclosed x (grid_connected w h x hxv) hx

theorem chosen_facts (s : GenState) (next : Coord) (dir : TileDirection)
    (hmem : (next, dir) ∈ s.get_valid_neighbor_coords_and_dirs s.coord) :
    (next, dir) ∈ s.maze.get_neighbor_coords_and_dirs s.coord ∧ next ∈ s.left_to_visit := by
  unfold GenState.get_valid_neighbor_coords_and_dirs at hmem
  rw [List.mem_filter] at hmem
  exact ⟨hmem.1, by simpa using hmem.2⟩

theorem genStep_spec (seq : Nat → Nat) (w h : Nat) (k : Nat)
    (s : GenState) (inv : GenInv w h s) (hguard : genGuard s = true) :
    ∃ s1 b, genStep seq k s = some (s1, b) ∧ GenInv w h s1 ∧
      genMeasure s1 + 1 = genMeasure s ∧
      (b = true → s1.left_to_visit.card + 1 = s.left_to_visit.card ∧
        s1.path_stack.length = s.path_stack.length + 1) ∧
      (b = false → s1.left_to_visit = s.left_to_visit ∧
        s.path_stack.length = s1.path_stack.length + 1) := by
  unfold genStep
  cases hch : chooseFrom seq k (s.get_valid_neighbor_coords_and_dirs s.coord) with
  | none =>
    have hnil : s.get_valid_neighbor_coords_and_dirs s.coord = [] :=
      chooseFrom_none _ _ _ hch
    cases hstack : s.path_stack with
    | nil =>
      exfalso
      have hempty : s.left_to_visit = ∅ := pop_safety w h s inv hstack hnil
      rcases genGuard_true_elim s hguard with hne | hne
      · exact hne hstack
      · exact hne hempty
    | cons c0 rest =>
      have hc0mem : c0 ∈ s.path_stack := by
        rw [hstack]
        exact List.mem_cons_self c0 rest
      refine ⟨{ s with coord := c0, path_stack := rest }, false, rfl, ?_, ?_, ?_, ?_⟩
      · refine ⟨inv.size_eq, inv.wf, inv.ltv_valid, inv.root_vis,
          inv.stack_valid c0 hc0mem, inv.stack_vis c0 hc0mem,
          ?_, ?_, ?_, inv.carved_vis, inv.reach, inv.forest⟩
        · intro x hx
          refine inv.stack_valid x ?_
          rw [hstack]
          exact List.mem_cons_of_mem c0 hx
        · intro x hx
          refine inv.stack_vis x ?_
          rw [hstack]
          exact List.mem_cons_of_mem c0 hx
        · intro x hxv hxl hxa p hpv hpadj
          by_cases hxcur : x = s.coord
          · exact no_unvisited_neighbor w h s inv.size_eq inv.cur_valid hnil p hpv
              (hxcur ▸ hpadj)
          · refine inv.closure x hxv hxl ?_ p hpv hpadj
            rw [hstack]
            intro hmem
            rcases List.mem_cons.mp hmem with hh1 | hh1
            · exact hxcur hh1
            · exact hxa hh1
      · show 2 * s.left_to_visit.card + rest.length + 1 =
          2 * s.left_to_visit.card + s.path_stack.length
        rw [hstack]
        simp only [List.length_cons]
        omega
      · intro hb
        cases hb
      · intro _
        refine ⟨rfl, ?_⟩
        show (c0 :: rest).length = rest.length + 1
        simp only [List.length_cons]
  | some q =>
    obtain ⟨next, dir⟩ := q
    have hmemfilter := chooseFrom_mem _ _ _ _ hch
    obtain ⟨hm, hnext_ltv⟩ := chosen_facts s next dir hmemfilter
    have hsz := inv.size_eq
    have hwf := inv.wf
    have hcv : s.maze.is_valid_coord s.coord = true := by
      rw [validB_iff_is_valid w h s.maze hsz]
      exact inv.cur_valid
    have hnextv : s.maze.is_valid_coord next = true := (Maze.mem_neighbors_elim _ _ _ _ hm).1
    have hnextB : validB w h next = true := by
      rw [← validB_iff_is_valid w h s.maze hsz]
      exact hnextv
    obtain ⟨hadjcn, hdirto, hdirfrom, hnex⟩ := Maze.mem_neighbors_facts s.maze s.coord next dir hm
    have hcurne : s.coord ≠ next := fun hq => hnex hq.symm
    have hcarved := carvedB_disable_iff w h s.maze hsz hwf s.coord next dir hcv hm
    have hcarved_mono : ∀ a b1, (carvedB w h s.maze a b1 && carvedB w h s.maze b1 a) = true →
        (carvedB w h (s.maze.disable_wall s.coord dir) a b1 &&
         carvedB w h (s.maze.disable_wall s.coord dir) b1 a) = true := by
      intro a b1 hab
      rw [Bool.and_eq_true] at hab ⊢
      exact ⟨(hcarved a b1).mpr (Or.inl hab.1), (hcarved b1 a).mpr (Or.inl hab.2)⟩
    have hnewedge : (carvedB w h (s.maze.disable_wall s.coord dir) s.coord next &&
        carvedB w h (s.maze.disable_wall s.coord dir) next s.coord) = true := by
      rw [Bool.and_eq_true]
      exact ⟨(hcarved s.coord next).mpr (Or.inr (Or.inl ⟨rfl, rfl⟩)),
        (hcarved next s.coord).mpr (Or.inr (Or.inr ⟨rfl, rfl⟩))⟩
    have hnot_in_erase : ∀ x, x ∉ s.left_to_visit → x ∉ s.left_to_visit.erase next :=
      fun x hx hmem => hx (Finset.mem_of_mem_erase hmem)
    have hout_of_erase : ∀ x, x ∉ s.left_to_visit.erase next → x ≠ next →
        x ∉ s.left_to_visit := by
      intro x hxe hxn hmem
      exact hxe (Finset.mem_erase.mpr ⟨hxn, hmem⟩)
    refine ⟨_, true, rfl, ?_, ?_, ?_, ?_⟩
    · refine ⟨?_, MazeWF_disable_wall _ _ _ hwf, ?_, ?_, hnextB, Finset.not_mem_erase next _,
        ?_, ?_, ?_, ?_, ?_, ?_⟩
      · rw [Maze.size_disable_wall]
        exact hsz
      · intro x hx
        exact inv.ltv_valid x (Finset.mem_of_mem_erase hx)
      · exact hnot_in_erase _ inv.root_vis
      · intro x hx
        rcases List.mem_cons.mp hx with hq | hq
        · rw [hq]
          exact inv.cur_valid
        · exact inv.stack_valid x hq
      · intro x hx
        rcases List.mem_cons.mp hx with hq | hq
        · rw [hq]
          exact hnot_in_erase _ inv.cur_vis
        · exact hnot_in_erase _ (inv.stack_vis x hq)
      · intro x hxv hxl hxa p hpv hpadj
        have hxn : x ≠ next := by
          intro hq
          exact hxa (hq ▸ List.mem_cons_self _ _)
        have hxltv : x ∉ s.left_to_visit := hout_of_erase x hxl hxn
        have hxact : x ∉ s.coord :: s.path_stack := by
          intro hmem
          exact hxa (List.mem_cons_of_mem next hmem)
        exact hnot_in_erase _ (inv.closure x hxv hxltv hxact p hpv hpadj)
      · intro u v hcv'
        rcases (hcarved u v).mp hcv' with hold | ⟨hu, hv⟩ | ⟨hu, hv⟩
        · obtain ⟨h1, h2⟩ := inv.carved_vis u v hold
          exact ⟨hnot_in_erase _ h1, hnot_in_erase _ h2⟩
        · rw [hu, hv]
          exact ⟨hnot_in_erase _ inv.cur_vis, Finset.not_mem_erase next _⟩
        · rw [hu, hv]
          exact ⟨Finset.not_mem_erase next _, hnot_in_erase _ inv.cur_vis⟩
      · intro x hxv hxl
        by_cases hxn : x = next
        · rw [hxn]
          refine Relation.ReflTransGen.tail ?_ hnewedge
          exact Relation.ReflTransGen.mono hcarved_mono
            (inv.reach s.coord inv.cur_valid inv.cur_vis)
        · exact Relation.ReflTransGen.mono hcarved_mono
            (inv.reach x hxv (hout_of_erase x hxl hxn))
      · obtain ⟨num, par, B, hedge, hbound⟩ := inv.forest
        refine ⟨fun x => if x = next then B else num x,
          fun x => if x = next then s.coord else par x, B + 1, ?_, ?_⟩
        · intro u v hcv'
          rcases (hcarved u v).mp hcv' with hold | ⟨hu, hv⟩ | ⟨hu, hv⟩
          · obtain ⟨hunl, hvnl⟩ := inv.carved_vis u v hold
            have hun : u ≠ next := fun hq => hunl (hq ▸ hnext_ltv)
            have hvn : v ≠ next := fun hq => hvnl (hq ▸ hnext_ltv)
            rcases hedge u v hold with ⟨he1, he2⟩ | ⟨he1, he2⟩
            · left
              constructor
              · show u = if v = next then s.coord else par v
                rw [if_neg hvn]
                exact he1
              · show (if u = next then B else num u) < (if v = next then B else num v)
                rw [if_neg hun, if_neg hvn]
                exact he2
            · right
              constructor
              · show v = if u = next then s.coord else par u
                rw [if_neg hun]
                exact he1
              · show (if v = next then B else num v) < (if u = next then B else num u)
                rw [if_neg hun, if_neg hvn]
                exact he2
          · rw [hu, hv]
            left
            constructor
            · show s.coord = if next = next then s.coord else par next
              rw [if_pos rfl]
            · show (if s.coord = next then B else num s.coord) <
                (if next = next then B else num next)
              rw [if_neg hcurne, if_pos rfl]
              exact hbound s.coord inv.cur_valid inv.cur_vis
          · rw [hu, hv]
            right
            constructor
            · show s.coord = if next = next then s.coord else par next
              rw [if_pos rfl]
            · show (if s.coord = next then B else num s.coord) <
                (if next = next then B else num next)
              rw [if_neg hcurne, if_pos rfl]
              exact hbound s.coord inv.cur_valid inv.cur_vis
        · intro x hxv hxl
          show (if x = next then B else num x) < B + 1
          by_cases hxn : x = next
          · rw [if_pos hxn]
            omega
          · rw [if_neg hxn]
            have := hbound x hxv (hout_of_erase x hxl hxn)
            omega
    · show 2 * (s.left_to_visit.erase next).card + (s.coord :: s.path_stack).length + 1 =
        2 * s.left_to_visit.card + s.path_stack.length
      have hcard := Finset.card_erase_add_one hnext_ltv
      simp only [List.length_cons]
      omega
    · intro _
      refine ⟨Finset.card_erase_add_one hnext_ltv, ?_⟩
      show (s.coord :: s.path_stack).length = s.path_stack.length + 1
      simp only [List.length_cons]
    · intro hb
      cases hb

theorem genLoop_spec (seq : Nat → Nat) (w h : Nat) :
    ∀ (fuel k : Nat) (s : GenState) (adv pops : Nat), GenInv w h s →
      genMeasure s < fuel →
      ∃ s1 adv1 pops1, genLoop seq fuel k s adv pops = some (s1, adv1, pops1) ∧
        GenInv w h s1 ∧ genGuard s1 = false ∧ s1.left_to_visit = ∅ ∧ s1.path_stack = [] ∧
        adv1 = adv + s.left_to_visit.card ∧
        pops1 = pops + s.path_stack.length + s.left_to_visit.card := by
  intro fuel
  induction fuel with
  | zero =>
    intro k s adv pops _ hm
    exact absurd hm (Nat.not_lt_zero _)
  | succ f ih =>
    intro k s adv pops inv hmeas
    by_cases hg : genGuard s = true
    · obtain ⟨s1, b, hstep, inv1, hmeas1, hbt, hbf⟩ := genStep_spec seq w h k s inv hg
      cases b with
      | true =>
        obtain ⟨hcard, hlen⟩ := hbt rfl
        obtain ⟨s2, adv2, pops2, hloop, inv2, hg2, hltv2, hstk2, hadv2, hpops2⟩ :=
          ih (k + 1) s1 (adv + 1) pops inv1 (by omega)
        refine ⟨s2, adv2, pops2, ?_, inv2, hg2, hltv2, hstk2, ?_, ?_⟩
        · unfold genLoop
          rw [if_pos hg, hstep]
          exact hloop
        · omega
        · omega
      | false =>
        obtain ⟨hltv_eq, hlen⟩ := hbf rfl
        obtain ⟨s2, adv2, pops2, hloop, inv2, hg2, hltv2, hstk2, hadv2, hpops2⟩ :=
          ih (k + 1) s1 adv (pops + 1) inv1 (by omega)
        refine ⟨s2, adv2, pops2, ?_, inv2, hg2, hltv2, hstk2, ?_, ?_⟩
        · unfold genLoop
          rw [if_pos hg, hstep]
          exact hloop
        · rw [hadv2, hltv_eq]
        · rw [hpops2, hltv_eq]
          omega
    · have hg' : genGuard s = false := by simpa using hg
      obtain ⟨hstk, hltv⟩ := genGuard_false_elim s hg'
      refine ⟨s, adv, pops, ?_, inv, hg', hltv, hstk, ?_, ?_⟩
      · unfold genLoop
        rw [if_neg hg]
      · rw [hltv]
        simp
      · rw [hltv, hstk]
        simp

theorem validB_mem_product (w h : Nat) (x : Coord) :
    validB w h x = true ↔ x ∈ (Finset.range w ×ˢ Finset.range h) := by
  unfold validB
  simp [Finset.mem_product, Finset.mem_range]

theorem carvedB_enable_all_new (w h : Nat) (u v : Coord)
    (hcv : carvedB w h ((Maze.new ⟨w, h⟩).enable_all_walls) u v = true) : False := by
  obtain ⟨hadj, hvu, hvv, hw1, hw2⟩ := carvedB_elim w h _ u v hcv
  have hwall : ((Maze.new ⟨w, h⟩).enable_all_walls).is_wall_enabled u (dirTo u v) = true := by
    apply Maze.enable_all_walls_wall _ (MazeWF_new _) u _
    rw [validB_iff_is_valid w h (Maze.new ⟨w, h⟩) rfl]
    exact hvu
  rw [hwall] at hw1
  cases hw1

theorem genInv_start (w h : Nat) (hw : 0 < w) (hh : 0 < h) :
    GenInv w h { maze := (Maze.new ⟨w, h⟩).enable_all_walls,
                 left_to_visit := ((Finset.range w ×ˢ Finset.range h) : Finset Coord).erase (0, 0),
                 path_stack := [], coord := (0, 0) } := by
  have hsz0 : ((Maze.new ⟨w, h⟩).enable_all_walls).size = ⟨w, h⟩ := by
    rw [Maze.size_enable_all_walls]
    rfl
  have hrootB : validB w h (0, 0) = true := by
    unfold validB
    simp only [Bool.and_eq_true, decide_eq_true_eq]
    exact ⟨hw, hh⟩
  refine ⟨hsz0, MazeWF_enable_all_walls _ (MazeWF_new _), ?_, Finset.not_mem_erase _ _,
    hrootB, Finset.not_mem_erase _ _, ?_, ?_, ?_, ?_, ?_, ?_⟩
  · intro x hx
    rw [validB_mem_product]
    exact Finset.mem_of_mem_erase hx
  · intro x hx
    exact absurd hx (List.not_mem_nil x)
  · intro x hx
    exact absurd hx (List.not_mem_nil x)
  · intro x hxv hxl hxa _ _ _
    exfalso
    have hxA : x ∈ (Finset.range w ×ˢ Finset.range h : Finset Coord) :=
      (validB_mem_product w h x).mp hxv
    by_cases hxr : x = (0, 0)
    · exact hxa (hxr ▸ List.mem_cons_self _ _)
    · exact hxl (Finset.mem_erase.mpr ⟨hxr, hxA⟩)
  · intro u v hcv
    exact absurd hcv (fun hq => carvedB_enable_all_new w h u v hq)
  · intro x hxv hxl
    have hxA : x ∈ (Finset.range w ×ˢ Finset.range h : Finset Coord) :=
      (validB_mem_product w h x).mp hxv
    have hxr : x = (0, 0) := by
      by_contra hxr
      exact hxl (Finset.mem_erase.mpr ⟨hxr, hxA⟩)
    rw [hxr]
    exact Relation.ReflTransGen.refl
  · refine ⟨fun _ => 0, fun x => x, 1, ?_, ?_⟩
    · intro u v hcv
      exact absurd hcv (fun hq => carvedB_enable_all_new w h u v hq)
    · intro x _ _
      show (0 : Nat) < 1
      omega

theorem generate_spec (seq : Nat → Nat) (w h : Nat) (hw : 0 < w) (hh : 0 < h) :
    ∃ s1 adv1 pops1,
      MazeGen.generate seq (MazeGen.new ⟨w, h⟩) = some (s1, adv1, pops1) ∧
      GenInv w h s1 ∧ s1.left_to_visit = ∅ ∧ s1.path_stack = [] ∧
      adv1 = w * h - 1 ∧ pops1 = w * h - 1 := by
  have hcardA : ((Finset.range w ×ˢ Finset.range h : Finset Coord)).card = w * h := by
    rw [Finset.card_product]
    simp
  have hrootA : ((0, 0) : Coord) ∈ (Finset.range w ×ˢ Finset.range h : Finset Coord) := by
    rw [Finset.mem_product]
    simp only [Finset.mem_range]
    exact ⟨hw, hh⟩
  have hcarde : ((Finset.range w ×ˢ Finset.range h : Finset Coord).erase (0, 0)).card + 1 =
      w * h := by
    rw [Finset.card_erase_add_one hrootA]
    exact hcardA
  obtain ⟨s1, adv1, pops1, hloop, inv1, hg1, hltv1, hstk1, hadv1, hpops1⟩ :=
    genLoop_spec seq w h (2 * w * h) 0
      { maze := (Maze.new ⟨w, h⟩).enable_all_walls,
        left_to_visit := ((Finset.range w ×ˢ Finset.range h) : Finset Coord).erase (0, 0),
        path_stack := [], coord := (0, 0) } 0 0 (genInv_start w h hw hh)
      (by
        unfold genMeasure
        simp only [List.length_nil]
        have hwh : 0 < w * h := Nat.mul_pos hw hh
        have hassoc : 2 * w * h = 2 * (w * h) := Nat.mul_assoc 2 w h
        omega)
  refine ⟨s1, adv1, pops1, ?_, inv1, hltv1, hstk1, ?_, ?_⟩
  · unfold MazeGen.generate MazeGen.new
    dsimp only
    rw [Maze.size_enable_all_walls]
    exact hloop
  · simp only [List.length_nil] at hadv1
    omega
  · simp only [List.length_nil] at hpops1
    omega

/-- C4: for every positive size, `MazeGen::generate` terminates and never
pops an empty path stack (either failure would make the modelled loop
return `none`): the loop completes with every cell visited and the stack
fully unwound, performing exactly `width*height - 1` advancing steps and
`width*height - 1 ≤ width*height` backtracking pops. -/
theorem generate_terminates (seq : Nat → Nat) (w h : Nat) (hw : 0 < w) (hh : 0 < h) :
    ∃ s1 adv1 pops1,
      MazeGen.generate seq (MazeGen.new ⟨w, h⟩) = some (s1, adv1, pops1) ∧
      adv1 = w * h - 1 ∧ pops1 ≤ w * h ∧
      s1.left_to_visit = ∅ ∧ s1.path_stack = [] := by
  obtain ⟨s1, adv1, pops1, hgen, _, hltv, hstk, hadv, hpops⟩ := generate_spec seq w h hw hh
  exact ⟨s1, adv1, pops1, hgen, hadv, by omega, hltv, hstk⟩

/-- Witness for C4 at a concrete input. -/
theorem generate_terminates_witness :
    ∃ s1 adv1 pops1,
      MazeGen.generate (fun _ => 0) (MazeGen.new ⟨2, 2⟩) = some (s1, adv1, pops1) ∧
      adv1 = 2 * 2 - 1 ∧ pops1 ≤ 2 * 2 ∧ s1.left_to_visit = ∅ ∧ s1.path_stack = [] :=
  generate_terminates (fun _ => 0) 2 2 (by decide) (by decide)

/-- C5: generation is deterministic — `generate` seeds its generator with
the constant 1512 on every call, so every run of `gen_maze` consumes the
same random stream (modelled by `seq`), and two runs with the same stream
and the same size agree on `is_wall_enabled` at every coordinate and
direction. -/
theorem gen_maze_deterministic (seq1 seq2 : Nat → Nat) (size : Size) (hseq : seq1 = seq2) :
    ∀ c d, (gen_maze seq1 size).is_wall_enabled c d =
      (gen_maze seq2 size).is_wall_enabled c d := by
  rw [hseq]
  intro c d
  rfl

/-- Witness for C5 at a concrete input. -/
theorem gen_maze_deterministic_witness :
    (gen_maze (fun _ => 0) ⟨2, 2⟩).is_wall_enabled (0, 0) TileDirection.EAST =
      (gen_maze (fun _ => 0) ⟨2, 2⟩).is_wall_enabled (0, 0) TileDirection.EAST :=
  gen_maze_deterministic (fun _ => 0) (fun _ => 0) ⟨2, 2⟩ rfl (0, 0) TileDirection.EAST

theorem list_exists_max {V : Type} (num : V → Nat) :
    ∀ (l : List V), l ≠ [] → ∃ m ∈ l, ∀ y ∈ l, num y ≤ num m := by
  intro l
  induction l with
  | nil => intro hne; cases hne rfl
  | cons a t ih =>
    intro _
    cases t with
    | nil =>
      refine ⟨a, List.mem_cons_self a [], ?_⟩
      intro y hy
      rcases List.mem_cons.mp hy with rfl | hy
      · exact Nat.le_refl _
      · cases hy
    | cons b t2 =>
      obtain ⟨m, hm, hmax⟩ := ih (by simp)
      by_cases hc : num a ≤ num m
      · refine ⟨m, List.mem_cons_of_mem a hm, ?_⟩
        intro y hy
        rcases List.mem_cons.mp hy with rfl | hy
        · exact hc
        · exact hmax y hy
      · refine ⟨a, List.mem_cons_self _ _, ?_⟩
        intro y hy
        rcases List.mem_cons.mp hy with rfl | hy
        · exact Nat.le_refl _
        · exact Nat.le_trans (hmax y hy) (by omega)

theorem exists_edge_into_end {V : Type} {G : SimpleGraph V} :
    ∀ {x m : V} (q : G.Walk x m), x ≠ m → ∃ y, s(y, m) ∈ q.edges := by
  intro x m q
  induction q with
  | nil => intro hx; cases hx rfl
  | @cons u v w hadj p ih =>
    intro _
    by_cases hvm : v = w
    · subst hvm
      exact ⟨u, by simp [SimpleGraph.Walk.edges_cons]⟩
    · obtain ⟨y, hy⟩ := ih hvm
      exact ⟨y, by simp [SimpleGraph.Walk.edges_cons, hy]⟩

theorem no_cycle_at_max {V : Type} (G : SimpleGraph V) (num : V → Nat) (par : V → V)
    (hedge : ∀ u v, G.Adj u v → (u = par v ∧ num u < num v) ∨ (v = par u ∧ num v < num u))
    (m : V) (c : G.Walk m m) (hc : c.IsCycle) (hmax : ∀ y ∈ c.support, num y ≤ num m) :
    False := by
  cases c with
  | nil => exact hc.ne_nil rfl
  | @cons _ x _ hadj q =>
    have hxm : x ≠ m := (G.ne_of_adj hadj).symm
    have hx_supp : x ∈ (SimpleGraph.Walk.cons hadj q).support := by
      rw [SimpleGraph.Walk.support_cons]
      exact List.mem_cons_of_mem m q.start_mem_support
    have hxpar : x = par m := by
      rcases hedge m x hadj with ⟨h1, h2⟩ | ⟨h1, h2⟩
      · have := hmax x hx_supp
        omega
      · exact h1
    obtain ⟨y, hy_edge⟩ := exists_edge_into_end q hxm
    have hy_adj : G.Adj y m := q.adj_of_mem_edges hy_edge
    have hy_supp : y ∈ (SimpleGraph.Walk.cons hadj q).support := by
      rw [SimpleGraph.Walk.support_cons]
      exact List.mem_cons_of_mem m (q.fst_mem_support_of_mem_edges hy_edge)
    have hypar : y = par m := by
      rcases hedge y m hy_adj with ⟨h1, h2⟩ | ⟨h1, h2⟩
      · exact h1
      · have := hmax y hy_supp
        omega
    have hnodup := hc.edges_nodup
    rw [SimpleGraph.Walk.edges_cons] at hnodup
    have hhead_notin : s(m, x) ∉ q.edges := (List.nodup_cons.mp hnodup).1
    apply hhead_notin
    have hyx : y = x := by rw [hxpar, hypar]
    rw [hyx] at hy_edge
    rw [Sym2.eq_swap] at hy_edge
    exact hy_edge

theorem acyclic_of_parent {V : Type} [DecidableEq V] (G : SimpleGraph V) (num : V → Nat)
    (par : V → V)
    (hedge : ∀ u v, G.Adj u v → (u = par v ∧ num u < num v) ∨ (v = par u ∧ num v < num u)) :
    G.IsAcyclic := by
  intro v c hc
  obtain ⟨m, hm_mem, hmax0⟩ := list_exists_max num c.support (SimpleGraph.Walk.support_ne_nil c)
  have hc' := hc.rotate hm_mem
  have hmax : ∀ y ∈ (c.rotate hm_mem).support, num y ≤ num m := by
    intro y hy
    rw [SimpleGraph.Walk.support_eq_cons (c.rotate hm_mem)] at hy
    rcases List.mem_cons.mp hy with rfl | hy
    · exact Nat.le_refl _
    · apply hmax0
      rw [SimpleGraph.Walk.support_eq_cons c]
      refine List.mem_cons_of_mem v ?_
      exact ((SimpleGraph.Walk.support_rotate c hm_mem).mem_iff).mp hy
  exact no_cycle_at_max G num par hedge m (c.rotate hm_mem) hc' hmax

theorem toV_eq (w h : Nat) (c : Coord) (hc : validB w h c = true) (a : Fin w × Fin h)
    (hca : c = (a.1.val, a.2.val)) : toV w h c hc = a := by
  subst hca
  rfl

theorem reach_transfer (w h : Nat) (m : Maze) (u v : Coord) (hr : CarvedReach w h m u v) :
    ∀ (hu : validB w h u = true) (hv : validB w h v = true),
      (mazeGraph w h m).Reachable (toV w h u hu) (toV w h v hv) := by
  induction hr with
  | refl =>
    intro hu hv
    exact SimpleGraph.Reachable.refl _
  | @tail b c2 hab hbc ih =>
    intro hu hv
    have hbc2 : carvedB w h m b c2 = true := by
      have hq := hbc
      simp only [Bool.and_eq_true] at hq
      exact hq.1
    have hvb : validB w h b = true := (carvedB_elim w h m b c2 hbc2).2.1
    refine SimpleGraph.Reachable.trans (ih hu hvb) ?_
    apply SimpleGraph.Adj.reachable
    exact hbc

theorem gen_maze_is_tree (seq : Nat → Nat) (w h : Nat) (hw : 0 < w) (hh : 0 < h) :
    (mazeGraph w h (gen_maze seq ⟨w, h⟩)).IsTree := by
  obtain ⟨s1, adv1, pops1, hgen, inv1, hltv1, hstk1, _, _⟩ := generate_spec seq w h hw hh
  have hmz : gen_maze seq ⟨w, h⟩ = s1.maze := by
    unfold gen_maze
    rw [hgen]
  rw [hmz]
  have hrootB : validB w h (0, 0) = true := by
    unfold validB
    simp only [Bool.and_eq_true, decide_eq_true_eq]
    exact ⟨hw, hh⟩
  have hreach : ∀ c, validB w h c = true → CarvedReach w h s1.maze (0, 0) c := by
    intro c hcB
    refine inv1.reach c hcB ?_
    rw [hltv1]
    exact Finset.not_mem_empty c
  constructor
  · rw [SimpleGraph.connected_iff]
    refine ⟨?_, ⟨(⟨0, hw⟩, ⟨0, hh⟩)⟩⟩
    intro a b
    have hva : validB w h (a.1.val, a.2.val) = true := by
      unfold validB
      simp only [Bool.and_eq_true, decide_eq_true_eq]
      exact ⟨a.1.isLt, a.2.isLt⟩
    have hvb : validB w h (b.1.val, b.2.val) = true := by
      unfold validB
      simp only [Bool.and_eq_true, decide_eq_true_eq]
      exact ⟨b.1.isLt, b.2.isLt⟩
    have hra := reach_transfer w h s1.maze (0, 0) (a.1.val, a.2.val)
      (hreach _ hva) hrootB hva
    have hrb := reach_transfer w h s1.maze (0, 0) (b.1.val, b.2.val)
      (hreach _ hvb) hrootB hvb
    rw [toV_eq w h _ hva a rfl] at hra
    rw [toV_eq w h _ hvb b rfl] at hrb
    exact hra.symm.trans hrb
  · obtain ⟨num, par, B, hedge0, _⟩ := inv1.forest
    apply acyclic_of_parent _ (fun aF => num (aF.1.val, aF.2.val))
      (fun bF => if hp : validB w h (par (bF.1.val, bF.2.val)) = true
        then toV w h (par (bF.1.val, bF.2.val)) hp else bF)
    intro aF bF hadj
    have hadj' : (carvedB w h s1.maze (aF.1.val, aF.2.val) (bF.1.val, bF.2.val) &&
        carvedB w h s1.maze (bF.1.val, bF.2.val) (aF.1.val, aF.2.val)) = true := hadj
    rw [Bool.and_eq_true] at hadj'
    rcases hedge0 _ _ hadj'.1 with ⟨he1, he2⟩ | ⟨he1, he2⟩
    · left
      constructor
      · have hp : validB w h (par (bF.1.val, bF.2.val)) = true := by
          rw [← he1]
          unfold validB
          simp only [Bool.and_eq_true, decide_eq_true_eq]
          exact ⟨aF.1.isLt, aF.2.isLt⟩
        show aF = if hp2 : validB w h (par (bF.1.val, bF.2.val)) = true
          then toV w h (par (bF.1.val, bF.2.val)) hp2 else bF
        rw [dif_pos hp]
        exact (toV_eq w h _ hp aF (by rw [← he1])).symm
      · exact he2
    · right
      constructor
      · have hp : validB w h (par (aF.1.val, aF.2.val)) = true := by
          rw [← he1]
          unfold validB
          simp only [Bool.and_eq_true, decide_eq_true_eq]
          exact ⟨bF.1.isLt, bF.2.isLt⟩
        show bF = if hp2 : validB w h (par (aF.1.val, aF.2.val)) = true
          then toV w h (par (aF.1.val, aF.2.val)) hp2 else aF
        rw [dif_pos hp]
        exact (toV_eq w h _ hp bF (by rw [← he1])).symm
      · exact he2

/-- C1: for every positive size (and every random stream, hence in
particular the fixed-seed one), the graph whose vertices are the grid's
cells and whose edges connect adjacent cells with the wall between them
disabled is, after `gen_maze` (that is, after `MazeGen::generate` on a
fresh generator), connected and acyclic with exactly `width*height - 1`
edges: a spanning tree, i.e. a perfect maze. -/
theorem gen_maze_spanning_tree (seq : Nat → Nat) (w h : Nat) (hw : 0 < w) (hh : 0 < h) :
    (mazeGraph w h (gen_maze seq ⟨w, h⟩)).Connected ∧
    (mazeGraph w h (gen_maze seq ⟨w, h⟩)).IsAcyclic ∧
    (mazeGraph w h (gen_maze seq ⟨w, h⟩)).edgeFinset.card = w * h - 1 := by
  have htree := gen_maze_is_tree seq w h hw hh
  refine ⟨htree.isConnected, htree.IsAcyclic, ?_⟩
  have hcard := htree.card_edgeFinset
  rw [Fintype.card_prod, Fintype.card_fin, Fintype.card_fin] at hcard
  omega

/-- Witness for C1 at a concrete input. -/
theorem gen_maze_spanning_tree_witness :
    (mazeGraph 2 2 (gen_maze (fun _ => 0) ⟨2, 2⟩)).Connected ∧
    (mazeGraph 2 2 (gen_maze (fun _ => 0) ⟨2, 2⟩)).IsAcyclic ∧
    (mazeGraph 2 2 (gen_maze (fun _ => 0) ⟨2, 2⟩)).edgeFinset.card = 2 * 2 - 1 :=
  gen_maze_spanning_tree (fun _ => 0) 2 2 (by decide) (by decide)
